import Mathlib

/-!
Verification development for the tw2panda repository (Tailwind → Panda CSS
converter).  The definitions below are shallow embeddings of the TypeScript
source files under `packages/tw2panda/src/`; external collaborators
(the Tailwind design-system oracle, the Panda merge helper from
`@pandacss/shared`, file-system reads) are passed in as explicit function
parameters, mirroring how the source consumes them.
-/

namespace Tw2Panda

/-- A JS "word" character, i.e. the regex class `\w` = `[A-Za-z0-9_]`. -/
def isWordChar (c : Char) : Bool :=
  c.isAlpha || c.isDigit || c = '_'

/-! String primitives re-implemented by structural recursion on the
character list, so that every definition evaluates inside the kernel. -/

def strStartsWith (s t : String) : Bool :=
  List.isPrefixOf t.data s.data

def strEndsWith (s t : String) : Bool :=
  List.isPrefixOf t.data.reverse s.data.reverse

def strDropRight (s : String) (n : Nat) : String :=
  String.mk (s.data.take (s.data.length - n))

/-- `trim`: strip leading and trailing whitespace. -/
def strTrim (s : String) : String :=
  String.mk (((s.data.dropWhile Char.isWhitespace).reverse.dropWhile
    Char.isWhitespace).reverse)

def strToLower (s : String) : String :=
  String.mk (s.data.map Char.toLower)

/-- `split` on a single-character separator, JS semantics (`"".split` gives
`[""]`, a trailing separator yields a final empty piece). -/
def splitListOnChar (sep : Char) : List Char → List (List Char)
  | [] => [[]]
  | c :: rest =>
    let r := splitListOnChar sep rest
    if c = sep then [] :: r
    else
      match r with
      | [] => [[c]]
      | h :: t => (c :: h) :: t

def splitOnChar (sep : Char) (s : String) : List String :=
  (splitListOnChar sep s.data).map String.mk

/-- `Array.prototype.join(sep)`. -/
def joinWith (sep : String) : List String → String
  | [] => ""
  | [x] => x
  | x :: y :: rest => x ++ sep ++ joinWith sep (y :: rest)

/-- Code-unit lexicographic string order (the JS default sort comparator;
identical to code-point order on the ASCII class names involved). -/
def listCharLe : List Char → List Char → Bool
  | [], _ => true
  | _ :: _, [] => false
  | a :: as, b :: bs =>
    if a = b then listCharLe as bs else decide (a < b)

def strLe (s t : String) : Bool :=
  listCharLe s.data t.data

/-- Embeds `kebabToCamel` from `tw-class-list-to-panda-styles.ts`:
`str.replace(/(-\w)/g, g => g[1].toUpperCase())` — every dash followed by a
word character is replaced by that character upper-cased. -/
def kebabToCamelAux : List Char → List Char
  | [] => []
  | [c] => [c]
  | c :: c2 :: rest2 =>
    if c = '-' && isWordChar c2 then c2.toUpper :: kebabToCamelAux rest2
    else c :: kebabToCamelAux (c2 :: rest2)

def kebabToCamel (s : String) : String :=
  String.mk (kebabToCamelAux s.data)

/-- Recursive style objects: a property/condition key maps to a string value
or a nested object (the `StyleObject` type of `types.ts`). -/
inductive StyleVal where
  | str : String → StyleVal
  | obj : List (String × StyleVal) → StyleVal

mutual

def StyleVal.decEq : (a b : StyleVal) → Decidable (a = b)
  | .str x, .str y =>
    if h : x = y then isTrue (by rw [h]) else isFalse (fun he => by injection he with h2; exact h h2)
  | .str _, .obj _ => isFalse (fun h => StyleVal.noConfusion h)
  | .obj _, .str _ => isFalse (fun h => StyleVal.noConfusion h)
  | .obj xs, .obj ys =>
    match StyleVal.decEqList xs ys with
    | isTrue h => isTrue (by rw [h])
    | isFalse h => isFalse (fun he => by injection he with h2; exact h h2)

def StyleVal.decEqList : (a b : List (String × StyleVal)) → Decidable (a = b)
  | [], [] => isTrue rfl
  | [], _ :: _ => isFalse (fun h => List.noConfusion h)
  | _ :: _, [] => isFalse (fun h => List.noConfusion h)
  | (k, v) :: rest, (k2, v2) :: rest2 =>
    if hk : k = k2 then
      match StyleVal.decEq v v2, StyleVal.decEqList rest rest2 with
      | isTrue hv, isTrue hr => isTrue (by rw [hk, hv, hr])
      | isFalse hv, _ => isFalse (fun h => by
          injection h with h1 h2
          injection h1 with hk2 hv2
          exact hv hv2)
      | _, isFalse hr => isFalse (fun h => by
          injection h with h1 h2
          exact hr h2)
    else isFalse (fun h => by
      injection h with h1 h2
      injection h1 with hk2 hv2
      exact hk hk2)

end

instance : DecidableEq StyleVal := StyleVal.decEq

/-- Condition-key resolution from the modifier-wrapping `reduce` in
`twClassListToPandaStyles`: try the `_`-prefixed camel-cased key in
`panda.conditions.values`, then the bare camel-cased key, else keep the raw
modifier text.  The registered condition keys are passed as a list. -/
def resolveCondition (conditionKeys : List String) (modifier : String) : String :=
  let camelModifier := kebabToCamel modifier
  let prefixed := "_" ++ camelModifier
  if prefixed ∈ conditionKeys then prefixed
  else if camelModifier ∈ conditionKeys then camelModifier
  else modifier

/-- Parsed class info carried on a matching token (`classInfo` from
`parseTwClassName`); only the fields read by `twClassListToPandaStyles`. -/
structure TwClassInfo where
  modifiers : List String
  isImportant : Bool
deriving DecidableEq

/-- A resolved property match (`MatchingToken` of `types.ts`). -/
structure MatchingToken where
  propName : String
  tokenName : String
  rawValue : String
  classInfo : TwClassInfo
deriving DecidableEq

/-- The fixed `PROP_TO_TOKEN_CATEGORY` record of
`tw-class-list-to-panda-styles.ts`, as an association list. -/
def PROP_TO_TOKEN_CATEGORY : List (String × String) :=
  [("color", "colors"), ("backgroundColor", "colors"), ("borderColor", "colors"),
   ("borderTopColor", "colors"), ("borderRightColor", "colors"), ("borderBottomColor", "colors"),
   ("borderLeftColor", "colors"), ("outlineColor", "colors"), ("fill", "colors"),
   ("stroke", "colors"), ("caretColor", "colors"), ("accentColor", "colors"),
   ("textDecorationColor", "colors"),
   ("fontSize", "fontSizes"), ("fontWeight", "fontWeights"), ("fontFamily", "fonts"),
   ("lineHeight", "lineHeights"), ("letterSpacing", "letterSpacings"),
   ("width", "sizes"), ("height", "sizes"), ("minWidth", "sizes"), ("minHeight", "sizes"),
   ("maxWidth", "sizes"), ("maxHeight", "sizes"),
   ("padding", "spacing"), ("paddingTop", "spacing"), ("paddingRight", "spacing"),
   ("paddingBottom", "spacing"), ("paddingLeft", "spacing"), ("paddingInline", "spacing"),
   ("paddingBlock", "spacing"),
   ("margin", "spacing"), ("marginTop", "spacing"), ("marginRight", "spacing"),
   ("marginBottom", "spacing"), ("marginLeft", "spacing"), ("marginInline", "spacing"),
   ("marginBlock", "spacing"),
   ("gap", "spacing"), ("rowGap", "spacing"), ("columnGap", "spacing"),
   ("top", "spacing"), ("right", "spacing"), ("bottom", "spacing"), ("left", "spacing"),
   ("inset", "spacing"),
   ("borderRadius", "radii"), ("borderTopLeftRadius", "radii"), ("borderTopRightRadius", "radii"),
   ("borderBottomLeftRadius", "radii"), ("borderBottomRightRadius", "radii"),
   ("borderWidth", "borderWidths"), ("borderTopWidth", "borderWidths"),
   ("borderRightWidth", "borderWidths"), ("borderBottomWidth", "borderWidths"),
   ("borderLeftWidth", "borderWidths"),
   ("boxShadow", "shadows"), ("opacity", "opacity"), ("zIndex", "zIndex"),
   ("transitionDuration", "durations"), ("transitionTimingFunction", "easings"),
   ("animationDuration", "durations"), ("animationTimingFunction", "easings")]

/-- Category lookup `PROP_TO_TOKEN_CATEGORY[propName]` (record access). -/
def lookupCategory (propName : String) : Option String :=
  PROP_TO_TOKEN_CATEGORY.lookup propName

/-- `value.includes("var(--")` — the value still contains a CSS variable
reference. -/
def containsVarRef (value : String) : Bool :=
  decide (List.IsInfix "var(--".data value.data)

def isHexDigit (c : Char) : Bool :=
  c.isDigit || (decide ('a' ≤ c) && decide (c ≤ 'f')) || (decide ('A' ≤ c) && decide (c ≤ 'F'))

/-- Regex `^#[0-9a-fA-F]{3,8}$` — hex colors. -/
def isHexColor (s : String) : Bool :=
  match s.data with
  | '#' :: rest =>
    decide (3 ≤ rest.length) && decide (rest.length ≤ 8) && rest.all isHexDigit
  | _ => false

/-- Regex `^(rgb|rgba|hsl|hsla|oklch|oklab|lab|lch)\(` — color functions. -/
def isColorFn (s : String) : Bool :=
  ["rgb(", "rgba(", "hsl(", "hsla(", "oklch(", "oklab(", "lab(", "lch("].any
    (fun head => strStartsWith s head)

/-- The unit suffixes of the numeric-value regex. -/
def cssUnits : List String :=
  ["%", "px", "rem", "em", "vh", "vw", "vmin", "vmax", "ch", "ex", "cm", "mm",
   "in", "pt", "pc", "deg", "rad", "turn", "s", "ms"]

def numericCore (l : List Char) : Bool :=
  !l.isEmpty && l.all (fun c => c.isDigit || c = '.')

/-- Regex `^-?[\d.]+(%|px|rem|...)?$` — numbers with optional units. -/
def isNumberToken (s : String) : Bool :=
  let body : List Char := match s.data with
    | '-' :: rest => rest
    | l => l
  numericCore body ||
    cssUnits.any (fun u =>
      List.isPrefixOf u.data.reverse body.reverse &&
        numericCore (body.take (body.length - u.data.length)))

/-- The whole-string keyword alternations of `isResolvableValue`, one list per
source regex (general keywords, alignment, border styles, text transform, flex
wrap, flex direction, background size). -/
def cssKeywordGroups : List (List String) :=
  [["auto", "none", "inherit", "initial", "unset", "revert", "normal", "bold", "italic",
    "block", "inline", "flex", "grid", "hidden", "visible", "absolute", "relative",
    "fixed", "sticky", "static"],
   ["left", "right", "center", "top", "bottom", "baseline", "stretch", "start", "end",
    "space-between", "space-around", "space-evenly"],
   ["solid", "dashed", "dotted", "double", "groove", "ridge", "inset", "outset",
    "none", "hidden"],
   ["uppercase", "lowercase", "capitalize", "none"],
   ["wrap", "nowrap", "wrap-reverse"],
   ["row", "column", "row-reverse", "column-reverse"],
   ["cover", "contain", "auto"]]

/-- Embeds `isResolvableValue` from `tw-class-list-to-panda-styles.ts`:
a value is usable as a token fallback only if it contains no `var(--`
reference and its trimmed form matches one of the usable-value shapes. -/
def isResolvableValue (value : String) : Bool :=
  if containsVarRef value then false
  else
    let v := strTrim value
    isHexColor v || isColorFn v || isNumberToken v ||
      cssKeywordGroups.any (fun group => group.contains v) ||
      strStartsWith v "url(" || strStartsWith v "calc("

/-- Embeds `formatTokenValue`: wrap in `token(category.path, fallback)` only
when the token path differs from the raw value, the raw value is a usable
fallback, and the property has a category in the fixed table. -/
def formatTokenValue (propName tokenName rawValue : String) : String :=
  if tokenName = rawValue then rawValue
  else if !isResolvableValue rawValue then rawValue
  else
    match lookupCategory propName with
    | some category => "token(" ++ category ++ "." ++ tokenName ++ ", " ++ rawValue ++ ")"
    | none => rawValue

/-- The per-match modifier-wrapping `reduce` of `twClassListToPandaStyles`:
start with `{propName: value}` and wrap once per modifier in list order. -/
def nestedStyles (conditionKeys : List String) (info : TwClassInfo)
    (propName value : String) : StyleVal :=
  info.modifiers.foldl
    (fun acc modifier => StyleVal.obj [(resolveCondition conditionKeys modifier, acc)])
    (StyleVal.obj [(propName, StyleVal.str value)])

/-- Embeds `twClassListToPandaStyles`.  The Tailwind/Panda resolution of one
class name into matching tokens (`getMatchingTwCandidates`, which consults the
external design system) is passed as the oracle `getMatches`. -/
def twClassListToPandaStyles (getMatches : String → List MatchingToken)
    (conditionKeys : List String) (classList : List String) :
    List (MatchingToken × StyleVal) :=
  classList.foldl
    (fun styles className =>
      styles ++ (getMatches className).map (fun m =>
        (m, nestedStyles conditionKeys m.classInfo m.propName
              (formatTokenValue m.propName m.tokenName m.rawValue))))
    []

/-- Wrap a base style object in nesting keys, outermost key first. -/
def nestKeys (keys : List String) (base : StyleVal) : StyleVal :=
  keys.foldr (fun k acc => StyleVal.obj [(k, acc)]) base

/-- `\w` or a dash — the char class of `TAILWIND_MARKER_CLASS_PATTERN`. -/
def isWordOrDash (c : Char) : Bool :=
  isWordChar c || c = '-'

/-- One alternative of the marker regex: `root` alone or `root/<[\w-]+>`. -/
def matchesMarkerRoot (root s : String) : Bool :=
  s = root ||
    (strStartsWith s (root ++ "/") &&
      (let rest := s.data.drop (root.length + 1)
       !rest.isEmpty && rest.all isWordOrDash))

/-- Embeds `isTailwindMarkerClass` from `rewrite-tw-file-content-to-panda.ts`:
regex `^(group|peer)(\/[\w-]+)?$`. -/
def isTailwindMarkerClass (s : String) : Bool :=
  matchesMarkerRoot "group" s || matchesMarkerRoot "peer" s

structure CategorizedClasses where
  twClasses : List String
  markerClasses : List String
  customClasses : List String
deriving DecidableEq

/-- One iteration of the `classList.forEach` in `categorizeClasses`:
marker classes are recognized first, then the resolver decides custom (null
CSS) versus Tailwind.  `twClasses` is a JS `Set`, so insertion is skipped for
an already-present class. -/
def categorizeStep (resolver : String → Option String)
    (acc : CategorizedClasses) (cls : String) : CategorizedClasses :=
  if isTailwindMarkerClass cls then
    { acc with markerClasses := acc.markerClasses ++ [cls] }
  else
    match resolver cls with
    | none => { acc with customClasses := acc.customClasses ++ [cls] }
    | some _ =>
      if cls ∈ acc.twClasses then acc
      else { acc with twClasses := acc.twClasses ++ [cls] }

/-- Embeds `categorizeClasses` from `rewrite-tw-file-content-to-panda.ts`.
The external `tailwind.candidatesToCss([cls])[0]` oracle is passed as
`resolver` (CSS text or null). -/
def categorizeClasses (resolver : String → Option String)
    (classList : List String) : CategorizedClasses :=
  classList.foldl (categorizeStep resolver) ⟨[], [], []⟩

/-- Merge-or-insert of one key into an entry list, parameterized by the
value-merge function (structural, so that proofs and the kernel can reduce
it). -/
def deepMergeInsertF (dm : StyleVal → StyleVal → StyleVal) :
    List (String × StyleVal) → String → StyleVal → List (String × StyleVal)
  | [], k, v => [(k, v)]
  | (k2, v2) :: as, k, v =>
    if k2 = k then (k2, dm v2 v) :: as
    else (k2, v2) :: deepMergeInsertF dm as k v

def deepMergeEntriesF (dm : StyleVal → StyleVal → StyleVal) :
    List (String × StyleVal) → List (String × StyleVal) →
    List (String × StyleVal)
  | a, [] => a
  | a, (k, v) :: rest => deepMergeEntriesF dm (deepMergeInsertF dm a k v) rest

/-- Nesting depth of a style value, used as (always sufficient) fuel for the
deep merge. -/
def styleDepth : StyleVal → Nat
  | .str _ => 1
  | .obj [] => 1
  | .obj ((_, v) :: rest) => max (styleDepth v + 1) (styleDepth (.obj rest))

def deepMergeFuel : Nat → StyleVal → StyleVal → StyleVal
  | 0, _, b => b
  | fuel + 1, a, b =>
    match a, b with
    | .obj ea, .obj eb => .obj (deepMergeEntriesF (deepMergeFuel fuel) ea eb)
    | _, _ => b

/-- Modelled from the spec: the structural deep merge of style objects
provided by the external `createMergeCss` helper (`@pandacss/shared`, not part
of this repository) — "combined across a whole class set by a structural
deep-merge that is last-write-wins per leaf path".  Recursion is bounded by
the nesting depth of the right operand, which every recursive call strictly
decreases, so the fuel never runs out. -/
def deepMerge (a b : StyleVal) : StyleVal :=
  deepMergeFuel (styleDepth b) a b

/-- `mergeCss(...styles)`: merge a list of style objects left to right. -/
def mergeStyles : List StyleVal → StyleVal
  | [] => .obj []
  | s :: rest => rest.foldl deepMerge s

/-- The class-set → merged-style-object pipeline of
`rewriteTwFileContentToPanda` (and spec entry point `classSetToStyleObject`):
categorize, convert the Tailwind part, merge; returns the merged object and
the unconverted (custom) classes. -/
def classSetToStyleObject (resolver : String → Option String)
    (getMatches : String → List MatchingToken) (conditionKeys : List String)
    (classList : List String) : StyleVal × List String :=
  let categorized := categorizeClasses resolver classList
  let styles := twClassListToPandaStyles getMatches conditionKeys categorized.twClasses
  (mergeStyles (styles.map (fun s => s.2)), categorized.customClasses)

/-- A detected pattern as consumed by the clustering code
(`ExtractedPattern`, fields used by `groupSimilarPatterns`). -/
structure PatternM where
  id : String
  classes : List String
deriving DecidableEq

/-- Embeds `calculateSimilarity` from `analyze-project.ts`: Jaccard
similarity of the two deduplicated class lists (JS number arithmetic is
modelled by exact rationals; the comparison against 0.5 is unaffected because
rounding to nearest is monotone and 0.5 is representable). -/
def calculateSimilarity (a b : List String) : ℚ :=
  let setA := a.dedup
  let setB := b.dedup
  let inter := (setA.filter (fun x => x ∈ setB)).length
  let union := (setA ++ setB).dedup.length
  if 0 < union then (inter : ℚ) / (union : ℚ) else 0

/-- Inner loop of `groupSimilarPatterns`: absorb every not-yet-used pattern
whose similarity with `p` exceeds 0.5 into the group. -/
def gspInner (p : PatternM) : List PatternM → List PatternM → List String →
    List PatternM × List String
  | [], group, used => (group, used)
  | other :: rest, group, used =>
    if other.id ∈ used then gspInner p rest group used
    else if 1/2 < calculateSimilarity p.classes other.classes then
      gspInner p rest (group ++ [other]) (used ++ [other.id])
    else gspInner p rest group used

/-- Outer loop of `groupSimilarPatterns`: open a group per not-yet-used
pattern in discovery order, keep groups of size at least 2. -/
def gspOuter (all : List PatternM) : List PatternM → List String →
    List (List PatternM)
  | [], _ => []
  | p :: rest, used =>
    if p.id ∈ used then gspOuter all rest used
    else
      let step := gspInner p all [p] (used ++ [p.id])
      if 2 ≤ step.1.length then step.1 :: gspOuter all rest step.2
      else gspOuter all rest step.2

/-- Embeds `groupSimilarPatterns` from `analyze-project.ts`. -/
def groupSimilarPatterns (patterns : List PatternM) : List (List PatternM) :=
  gspOuter patterns patterns []

/-- JS `Map.set`-style update on an insertion-ordered association list:
an existing key keeps its position, a new key is appended at the end. -/
def assocUpdate {α : Type} (key : String) (f : Option α → α) :
    List (String × α) → List (String × α)
  | [] => [(key, f none)]
  | (k, v) :: rest =>
    if k = key then (k, f (some v)) :: rest
    else (k, v) :: assocUpdate key f rest

/-- Insertion sort step for JS default string `sort()` (code-unit
lexicographic order, which for the ASCII class names used here coincides with
Lean's `String` order). -/
def insertSorted (s : String) : List String → List String
  | [] => [s]
  | t :: rest => if strLe s t then s :: t :: rest else t :: insertSorted s rest

def sortStrings (l : List String) : List String :=
  l.foldr insertSorted []

/-- Embeds `generatePatternId`: `[...classes].sort().join("|")`. -/
def generatePatternId (classes : List String) : String :=
  joinWith "|" (sortStrings classes)

/-- The optional-fallback part `(?:,\s*([^)]+))?\)` of the token regex, given
the input just after the comma. -/
def tokenFallbackMatch (after2 : List Char) : Option (String × List Char) :=
  let body := after2.drop (after2.takeWhile Char.isWhitespace).length
  let grp2 := body.takeWhile (fun c => !(c = ')'))
  if grp2.isEmpty then none
  else
    match body.drop grp2.length with
    | ')' :: after3 => some (String.mk grp2, after3)
    | _ => none

/-- The part `([^,)]+)(?:,\s*([^)]+))?\)` of the token regex, given the input
just after `token(`. -/
def tokenHeadMatch (rest : List Char) : Option ((String × Option String) × List Char) :=
  let grp1 := rest.takeWhile (fun c => !(c = ',' || c = ')'))
  if grp1.isEmpty then none
  else
    match rest.drop grp1.length with
    | ')' :: after => some ((String.mk grp1, none), after)
    | ',' :: after2 =>
      match tokenFallbackMatch after2 with
      | some (g2, after3) => some ((String.mk grp1, some g2), after3)
      | none => none
    | _ => none

/-- One attempted match of the regex `token\(([^,)]+)(?:,\s*([^)]+))?\)` at
the head of the character list: on success returns the two capture groups and
the remaining input after the match. -/
def tryTokenMatch (l : List Char) : Option ((String × Option String) × List Char) :=
  if l.take 6 = "token(".data then tokenHeadMatch (l.drop 6) else none

theorem takeWhileLengthLe {α : Type} (p : α → Bool) (l : List α) :
    (l.takeWhile p).length ≤ l.length := by
  induction l with
  | nil => simp
  | cons a l ih =>
    simp only [List.takeWhile_cons]
    split
    · simpa using ih
    · simp

theorem tokenFallbackMatch_shrinks (a : List Char) (s : String) (rem : List Char)
    (h : tokenFallbackMatch a = some (s, rem)) : rem.length < a.length := by
  simp only [tokenFallbackMatch] at h
  split at h
  · exact absurd h (by simp)
  · split at h
    case _ after3 heq =>
      injection h with h
      obtain ⟨_, h2⟩ := Prod.mk.injEq .. ▸ h
      have hlen := congrArg List.length heq
      simp only [List.length_drop, List.length_cons] at hlen
      subst h2
      omega
    case _ => exact absurd h (by simp)

theorem tokenHeadMatch_shrinks (a : List Char) (r : (String × Option String) × List Char)
    (h : tokenHeadMatch a = some r) : r.2.length < a.length := by
  simp only [tokenHeadMatch] at h
  split at h
  · exact absurd h (by simp)
  case _ hne =>
    have hgrplen : ¬(a.takeWhile (fun c => !(c = ',' || c = ')'))).length = 0 := by
      simpa [List.isEmpty_iff, List.length_eq_zero] using hne
    split at h
    case _ after heq =>
      injection h with h
      have hlen := congrArg List.length heq
      simp only [List.length_drop, List.length_cons] at hlen
      have htw : (a.takeWhile (fun c => !(c = ',' || c = ')'))).length ≤ a.length :=
        takeWhileLengthLe _ _
      subst h
      simp only []
      omega
    case _ after2 heq =>
      split at h
      case _ g2 after3 heqf =>
        injection h with h
        have hshrink := tokenFallbackMatch_shrinks after2 g2 after3 heqf
        have hlen := congrArg List.length heq
        simp only [List.length_drop, List.length_cons] at hlen
        subst h
        simp only []
        omega
      case _ => exact absurd h (by simp)
    case _ => exact absurd h (by simp)

theorem tryTokenMatch_shrinks (l : List Char) (r : (String × Option String) × List Char)
    (h : tryTokenMatch l = some r) : r.2.length < l.length := by
  simp only [tryTokenMatch] at h
  split at h
  case _ htake =>
    have hshrink := tokenHeadMatch_shrinks (l.drop 6) r h
    have htklen := congrArg List.length htake
    simp only [List.length_take] at htklen
    simp only [List.length_drop] at hshrink
    omega
  case _ => exact absurd h (by simp)

/-- Fuel-indexed scanner; by `tryTokenMatch_shrinks` every step strictly
shortens the input, so `fuel = l.length` (see `scanTokenRefs`) never runs
out. -/
def scanTokenRefsAux : Nat → List Char → List (String × Option String)
  | 0, _ => []
  | _, [] => []
  | fuel + 1, c :: rest =>
    match tryTokenMatch (c :: rest) with
    | some (grps, remaining) => grps :: scanTokenRefsAux fuel remaining
    | none => scanTokenRefsAux fuel rest

/-- Scan a string for all (non-overlapping, leftmost) matches of the token
regex, continuing after each match — the `while exec` loop of
`extractTokensFromStyles`. -/
def scanTokenRefs (l : List Char) : List (String × Option String) :=
  scanTokenRefsAux l.length l

/-- A token-usage aggregate (`TokenUsage` of `analyze-project.ts`). -/
structure TokenUsageM where
  category : String
  path : String
  value : String
  count : Nat
  files : List String
deriving DecidableEq

mutual

/-- DFS string leaves of a style object in key order — the strings visited by
`walkObject`. -/
def styleStrings : StyleVal → List String
  | .str s => [s]
  | .obj entries => styleStringsList entries

def styleStringsList : List (String × StyleVal) → List String
  | [] => []
  | (_, v) :: rest => styleStrings v ++ styleStringsList rest

end

/-- All token-reference matches contributed by one style object. -/
def tokenOccurrences (styles : StyleVal) : List (String × Option String) :=
  (styleStrings styles).foldr (fun s acc => scanTokenRefs s.data ++ acc) []

/-- One token-reference match updating the usage map, from the body of the
`while` loop in `extractTokensFromStyles`. -/
def updateTokenUsage (filePath : String)
    (tokens : List (String × TokenUsageM)) (occ : String × Option String) :
    List (String × TokenUsageM) :=
  let tokenPath := strTrim occ.1
  if tokenPath = "" then tokens
  else
    let parts := splitOnChar '.' tokenPath
    let category := match parts.head? with
      | some h => if h = "" then "unknown" else h
      | none => "unknown"
    let path := joinWith "." (parts.drop 1)
    let key := category ++ "." ++ path
    let fallback := match occ.2 with
      | some f => strTrim f
      | none => ""
    assocUpdate key
      (fun existing =>
        match existing with
        | some e =>
          { e with
            count := e.count + 1,
            files := if filePath ∈ e.files then e.files else e.files ++ [filePath] }
        | none => ⟨category, path, fallback, 1, [filePath]⟩)
      tokens

/-- Embeds `extractTokensFromStyles` from `analyze-project.ts`. -/
def extractTokensFromStyles (styles : StyleVal) (filePath : String)
    (tokens : List (String × TokenUsageM)) : List (String × TokenUsageM) :=
  (tokenOccurrences styles).foldl (updateTokenUsage filePath) tokens

/-- A repeated-class-set pattern entry (`ExtractedPattern`); the `locations`
field is always `[]` in `analyzeProject` and is omitted. -/
structure ExtractedPatternM where
  id : String
  classes : List String
  styles : StyleVal
  count : Nat
  files : List String
deriving DecidableEq

/-- A per-file analysis record (`FileAnalysis`; the always-empty `patterns`
field is omitted). -/
structure FileAnalysisM where
  filePath : String
  classes : List String
  convertedClasses : List String
  unconvertedClasses : List String
deriving DecidableEq

/-- What `extractClassesFromFile` returns for one file (produced by regex
extraction plus the resolver oracle; its I/O and regexes stay external). -/
structure FileExtractResult where
  classes : List String
  converted : List String
  unconverted : List String
deriving DecidableEq

structure AnalyzeState where
  fileAnalyses : List FileAnalysisM
  allTokens : List (String × TokenUsageM)
  classPatterns : List (String × ExtractedPatternM)
deriving DecidableEq

/-- The external inputs of `analyzeProject`: per-file extraction (file read +
regex + resolver; `.error` models a thrown exception), the per-class token
matcher, the registered Panda condition keys, and the external
`mapToShorthands` transform (source file not part of this repository). -/
structure AnalyzeOracles where
  runFile : String → Except String FileExtractResult
  getMatches : String → List MatchingToken
  conditionKeys : List String
  shorthands : Bool
  shorthandsFn : StyleVal → StyleVal

/-- The body of the per-file `for` loop of `analyzeProject`: a thrown error
is caught and the file skipped; otherwise styles are merged, token usage and
the pattern map are updated, and the file analysis is appended. -/
def analyzeFileStep (o : AnalyzeOracles) (st : AnalyzeState) (filePath : String) :
    AnalyzeState :=
  match o.runFile filePath with
  | .error _ => st
  | .ok res =>
    let st1 :=
      if res.converted.isEmpty then st
      else
        let styles := twClassListToPandaStyles o.getMatches o.conditionKeys res.converted
        if styles.isEmpty then st
        else
          let merged := mergeStyles (styles.map (fun s => s.2))
          let finalStyles := if o.shorthands then o.shorthandsFn merged else merged
          let tokens2 := extractTokensFromStyles finalStyles filePath st.allTokens
          let patternId := generatePatternId res.converted
          let patterns2 :=
            assocUpdate patternId
              (fun existing =>
                match existing with
                | some p =>
                  { p with
                    count := p.count + 1,
                    files := if filePath ∈ p.files then p.files else p.files ++ [filePath] }
                | none => ⟨patternId, res.converted, finalStyles, 1, [filePath]⟩)
              st.classPatterns
          { st with allTokens := tokens2, classPatterns := patterns2 }
    { st1 with
      fileAnalyses :=
        st1.fileAnalyses ++ [⟨filePath, res.classes, res.converted, res.unconverted⟩] }

/-- Stable insertion for the descending `sort((a, b) => b.count - a.count)`. -/
def insertByCountPat (p : ExtractedPatternM) : List ExtractedPatternM →
    List ExtractedPatternM
  | [] => [p]
  | q :: rest => if q.count < p.count then p :: q :: rest else q :: insertByCountPat p rest

def sortPatternsByCount (l : List ExtractedPatternM) : List ExtractedPatternM :=
  l.foldl (fun acc p => insertByCountPat p acc) []

def insertByCountTok (t : TokenUsageM) : List TokenUsageM → List TokenUsageM
  | [] => [t]
  | q :: rest => if q.count < t.count then t :: q :: rest else q :: insertByCountTok t rest

def sortTokensByCount (l : List TokenUsageM) : List TokenUsageM :=
  l.foldl (fun acc t => insertByCountTok t acc) []

structure AnalysisSummaryM where
  totalFiles : Nat
  totalClasses : Nat
  uniqueClasses : Nat
  convertedClasses : Nat
  unconvertedClasses : Nat
  detectedPatterns : Nat
  estimatedEffortHours : ℚ
deriving DecidableEq

structure ProjectAnalysisM where
  files : List FileAnalysisM
  tokens : List TokenUsageM
  patterns : List ExtractedPatternM
  summary : AnalysisSummaryM
deriving DecidableEq

/-- Embeds the aggregation and summary of `analyzeProject` over an
already-scanned file list (file scanning itself is file-system mechanics).
JS number arithmetic of the effort estimate is modelled by exact rationals;
`Math.ceil` is `Int.ceil`. -/
def analyzeProjectModel (o : AnalyzeOracles) (files : List String)
    (minPatternCount : Nat) : ProjectAnalysisM :=
  let st := files.foldl (analyzeFileStep o) ⟨[], [], []⟩
  let patterns :=
    sortPatternsByCount
      ((st.classPatterns.map (fun kv => kv.2)).filter
        (fun p => minPatternCount ≤ p.count))
  let allClasses := st.fileAnalyses.foldr (fun f acc => f.classes ++ acc) []
  let uniqueClasses := allClasses.dedup
  let uniqueConverted :=
    (st.fileAnalyses.foldr (fun f acc => f.convertedClasses ++ acc) []).dedup
  let uniqueUnconverted :=
    (st.fileAnalyses.foldr (fun f acc => f.unconvertedClasses ++ acc) []).dedup
  let estimatedMinutes : ℚ := uniqueUnconverted.length * 1 + patterns.length * (1 / 2)
  let estimatedHours : ℚ := (⌈estimatedMinutes / 60 * 10⌉ : ℚ) / 10
  { files := st.fileAnalyses,
    tokens := sortTokensByCount (st.allTokens.map (fun kv => kv.2)),
    patterns := patterns,
    summary :=
      { totalFiles := st.fileAnalyses.length,
        totalClasses := allClasses.length,
        uniqueClasses := uniqueClasses.length,
        convertedClasses := uniqueConverted.length,
        unconvertedClasses := uniqueUnconverted.length,
        detectedPatterns := patterns.length,
        estimatedEffortHours := estimatedHours } }

/-- Rounding a quantity to the nearest tenth — the claim-side reading of
"rounded to one decimal", for comparison with the code's ceiling. -/
def roundNearestTenth (x : ℚ) : ℚ :=
  ((round (x * 10) : ℤ) : ℚ) / 10

/-- The `cssOrConfig` argument of `createTailwindContext`: a string, a JS
config object, or absent. -/
inductive CssOrConfig where
  | strArg : String → CssOrConfig
  | objArg : CssOrConfig
  | noArg : CssOrConfig
deriving DecidableEq

def DEFAULT_TAILWIND_CSS : String := "@import \"tailwindcss\";"

def containsSubstr (haystack needle : String) : Bool :=
  decide (List.IsInfix needle.data haystack.data)

/-- The CSS text `createTailwindContext` derives from its argument: a string
that looks like CSS (contains `@import`, `@tailwind` or `@theme`) is used
directly, everything else falls back to the default framework import. -/
def deriveCss : CssOrConfig → String
  | .strArg s =>
    if containsSubstr s "@import" || containsSubstr s "@tailwind" || containsSubstr s "@theme" then s
    else DEFAULT_TAILWIND_CSS
  | .objArg => DEFAULT_TAILWIND_CSS
  | .noArg => DEFAULT_TAILWIND_CSS

/-- The module-level cache of `tw-context.ts` (`cachedDesignSystem`,
`cachedCss`).  Design-system instances are represented by distinct numeric
identities; `nextId` makes each construction observable. -/
structure TwCacheState where
  cachedDesignSystem : Option Nat
  cachedCss : Option String
  nextId : Nat
deriving DecidableEq

/-- Embeds `createTailwindContext` as a state transition: returns the context
handed to the caller, the new cache state, and whether the design system was
(re)constructed. -/
def createTailwindContext (s : TwCacheState) (input : CssOrConfig) :
    Nat × TwCacheState × Bool :=
  let css := deriveCss input
  match s.cachedDesignSystem with
  | some ds =>
    if s.cachedCss = some css then (ds, s, false)
    else (s.nextId, ⟨some s.nextId, some css, s.nextId + 1⟩, true)
  | none => (s.nextId, ⟨some s.nextId, some css, s.nextId + 1⟩, true)

/-- Embeds `clearTailwindContextCache`. -/
def clearTailwindContextCache (s : TwCacheState) : TwCacheState :=
  ⟨none, none, s.nextId⟩

/-- `extname` of `pathe`/Node: the suffix of the basename from its last dot,
empty for dotless names and leading-dot-only names. -/
def extname (p : String) : String :=
  let base := (splitOnChar '/' p).getLastD p
  match splitOnChar '.' base with
  | [] => ""
  | [_] => ""
  | first :: rest =>
    if first = "" ∧ rest.length = 1 then "" else "." ++ rest.getLastD ""

/-- `outputPath.replace(/\.(html?|htm)$/i, ".tsx")`. -/
def replaceHtmlExt (s : String) : String :=
  let low := strToLower s
  if strEndsWith low ".html" then strDropRight s 5 ++ ".tsx"
  else if strEndsWith low ".htm" then strDropRight s 4 ++ ".tsx"
  else s

/-- The external effects used by `processFile` in `batch-processor.ts`:
file read, the HTML and TS rewriters (returning converted text and
unconverted classes), and the output write (mkdir + writeFile).  `.error`
models a thrown exception. -/
structure BatchOracles where
  readFile : String → Except String String
  convertHtml : String → String → Except String (String × List String)
  convertTs : String → String → Except String String
  writeOut : String → String → Except String Unit

/-- The fixed configuration `processFile` receives from `batchProcess`. -/
structure BatchConfig where
  cwd : String
  outDir : Option String
  dryRun : Bool
  htmlExtensions : List String
  tsExtensions : List String
deriving DecidableEq

/-- A per-file batch result (`BatchFileResult`; the wall-clock `duration`
field is real time and is omitted). -/
structure BatchFileResultM where
  inputPath : String
  outputPath : String
  status : String
  original : Option String
  converted : Option String
  error : Option String
  unconvertedClasses : Option (List String)
deriving DecidableEq

def mkErrorResult (inputPath outputPath msg : String) : BatchFileResultM :=
  ⟨inputPath, outputPath, "error", none, none, some msg, none⟩

/-- Embeds `processFile` from `batch-processor.ts`: extension dispatch,
unchanged detection, dry-run handling, and the surrounding try/catch that
turns any thrown error into an `"error"` result for that file alone. -/
def processFileM (o : BatchOracles) (cfg : BatchConfig) (filePath : String) :
    BatchFileResultM :=
  let ext := strToLower (extname filePath)
  let outputPath0 :=
    match cfg.outDir with
    | some d => d ++ "/" ++ filePath
    | none => filePath
  let outputPath :=
    if cfg.htmlExtensions.contains ext then replaceHtmlExt outputPath0 else outputPath0
  match o.readFile (cfg.cwd ++ "/" ++ filePath) with
  | .error e => mkErrorResult filePath outputPath e
  | .ok content =>
    if cfg.htmlExtensions.contains ext then
      match o.convertHtml content filePath with
      | .error e => mkErrorResult filePath outputPath e
      | .ok (converted, unconverted) =>
        if converted = content then
          ⟨filePath, outputPath, "unchanged", some content, some converted, none, none⟩
        else if cfg.dryRun then
          ⟨filePath, outputPath, "success", some content, some converted, none, some unconverted⟩
        else
          match o.writeOut (cfg.cwd ++ "/" ++ outputPath) converted with
          | .error e => mkErrorResult filePath outputPath e
          | .ok _ =>
            ⟨filePath, outputPath, "success", some content, some converted, none, some unconverted⟩
    else if cfg.tsExtensions.contains ext then
      match o.convertTs content filePath with
      | .error e => mkErrorResult filePath outputPath e
      | .ok converted =>
        if converted = content then
          ⟨filePath, outputPath, "unchanged", some content, some converted, none, none⟩
        else if cfg.dryRun then
          ⟨filePath, outputPath, "success", some content, some converted, none, some []⟩
        else
          match o.writeOut (cfg.cwd ++ "/" ++ outputPath) converted with
          | .error e => mkErrorResult filePath outputPath e
          | .ok _ =>
            ⟨filePath, outputPath, "success", some content, some converted, none, some []⟩
    else
      ⟨filePath, outputPath, "skipped", none, none, none, none⟩

/-- Fuel-indexed chunking; a nonempty list always drops at least one element
per step, so `fuel = l.length` (see `chunkArray`) never runs out. -/
def chunkAux {α : Type} : Nat → List α → Nat → List (List α)
  | 0, _, _ => []
  | _, [], _ => []
  | fuel + 1, a :: rest, sizePred =>
    (a :: rest).take (sizePred + 1) ::
      chunkAux fuel ((a :: rest).drop (sizePred + 1)) sizePred

/-- Embeds `chunkArray` (guarded: the source loops forever on size 0, which
never happens since `concurrency` defaults to 4 and chunk sizes come from
it). -/
def chunkArray {α : Type} (l : List α) (size : Nat) : List (List α) :=
  match size with
  | 0 => []
  | n + 1 => chunkAux l.length l n

structure BatchSummaryM where
  total : Nat
  success : Nat
  errors : Nat
  skipped : Nat
  unchanged : Nat
deriving DecidableEq

structure BatchResultM where
  files : List BatchFileResultM
  summary : BatchSummaryM
deriving DecidableEq

/-- Embeds `batchProcess` on an already-globbed file list: chunked
processing (each chunk completed before the next starts), results
concatenated in order, and the status tallies of the summary. -/
def batchProcessM (o : BatchOracles) (cfg : BatchConfig) (files : List String)
    (concurrency : Nat) : BatchResultM :=
  let chunks := chunkArray files concurrency
  let results := chunks.foldl (fun acc chunk => acc ++ chunk.map (processFileM o cfg)) []
  { files := results,
    summary :=
      { total := results.length,
        success := (results.filter (fun r => r.status = "success")).length,
        errors := (results.filter (fun r => r.status = "error")).length,
        skipped := (results.filter (fun r => r.status = "skipped")).length,
        unchanged := (results.filter (fun r => r.status = "unchanged")).length } }

/-- A file observation that reaches the pattern-update code of
`analyzeProject` for hash `h`: extraction succeeded, some classes were
converted, they produced at least one style, and the sorted-class-set id is
`h`. -/
def observesPattern (o : AnalyzeOracles) (h : String) (f : String) : Bool :=
  match o.runFile f with
  | .error _ => false
  | .ok res =>
    !res.converted.isEmpty &&
    !(twClassListToPandaStyles o.getMatches o.conditionKeys res.converted).isEmpty &&
    decide (generatePatternId res.converted = h)

/-- `patterns.flatMap(p => p.classes)` of `inferRecipeName`. -/
def allClassesOf (patterns : List PatternM) : List String :=
  patterns.foldr (fun p acc => p.classes ++ acc) []

/-- The occurrence count recorded for a class-set hash in the pattern map
(0 when the hash has no entry yet). -/
def patternCountIn (ps : List (String × ExtractedPatternM)) (h : String) : Nat :=
  match ps.lookup h with
  | some p => p.count
  | none => 0

/-- The first-dash stem of a class name (`cls.split("-")[0]`). -/
def classStem (cls : String) : String :=
  (splitOnChar '-' cls).headD ""

/-- A stem is counted by `inferRecipeName` only when truthy and longer than
two characters. -/
def countedStem (cls : String) : Bool :=
  !(classStem cls).isEmpty && decide (2 < (classStem cls).length)

/-- The stem-frequency map of `inferRecipeName` (JS `Map`, insertion
ordered). -/
def stemCounts (allClasses : List String) : List (String × Nat) :=
  allClasses.foldl
    (fun acc cls =>
      if countedStem cls then
        assocUpdate (classStem cls) (fun e => (e.getD 0) + 1) acc
      else acc)
    []

/-- The max-scan of `inferRecipeName`: start from `("component", 0)` and take
the first strictly greater count. -/
def maxStem (counts : List (String × Nat)) : String × Nat :=
  counts.foldl (fun best kv => if best.2 < kv.2 then kv else best) ("component", 0)

/-- Embeds `inferRecipeName` from `analyze-project.ts`. -/
def inferRecipeName (patterns : List PatternM) : String :=
  (maxStem (stemCounts (allClassesOf patterns))).1

/-! ## Theorems -/

theorem foldlWrapEqNestKeys (f : String → String) (mods : List String) (base : StyleVal) :
    mods.foldl (fun acc m => StyleVal.obj [(f m, acc)]) base =
      nestKeys ((mods.map f).reverse) base := by
  induction mods generalizing base with
  | nil => rfl
  | cons m mods ih =>
    simp only [List.foldl_cons, List.map_cons, List.reverse_cons]
    rw [ih]
    simp [nestKeys, List.foldr_append]

theorem foldlAppendBind {α β : Type} (g : α → List β) (l : List α) (acc : List β) :
    l.foldl (fun s c => s ++ g c) acc = acc ++ l.flatMap g := by
  induction l generalizing acc with
  | nil => simp
  | cons c l ih => simp [ih]

theorem twClassListToPandaStylesEqBind (gm : String → List MatchingToken)
    (ck : List String) (cl : List String) :
    twClassListToPandaStyles gm ck cl =
      cl.flatMap (fun cn => (gm cn).map (fun m =>
        (m, nestedStyles ck m.classInfo m.propName
              (formatTokenValue m.propName m.tokenName m.rawValue)))) := by
  simpa [twClassListToPandaStyles] using
    foldlAppendBind (fun cn => (gm cn).map (fun m =>
      (m, nestedStyles ck m.classInfo m.propName
            (formatTokenValue m.propName m.tokenName m.rawValue)))) cl []

/-- C1 counterexample: for a candidate carrying the ordered modifier list
`["dark", "hover"]` (with `_dark` and `_hover` registered conditions),
`twClassListToPandaStyles` nests the LAST-listed modifier outermost,
producing `{_hover: {_dark: {color: …}}}` and not the `{_dark: {_hover: …}}`
object required by the claim. -/
theorem C1_counterexample :
    twClassListToPandaStyles
        (fun cn =>
          if cn = "dark:hover:text-red-500" then
            [⟨"color", "red.500", "#ef4444", ⟨["dark", "hover"], false⟩⟩]
          else [])
        ["_dark", "_hover"] ["dark:hover:text-red-500"] =
      [(⟨"color", "red.500", "#ef4444", ⟨["dark", "hover"], false⟩⟩,
        StyleVal.obj [("_hover", StyleVal.obj [("_dark",
          StyleVal.obj [("color", StyleVal.str "token(colors.red.500, #ef4444)")])])])] ∧
    StyleVal.obj [("_hover", StyleVal.obj [("_dark",
        StyleVal.obj [("color", StyleVal.str "token(colors.red.500, #ef4444)")])])] ≠
      StyleVal.obj [("_dark", StyleVal.obj [("_hover",
        StyleVal.obj [("color", StyleVal.str "token(colors.red.500, #ef4444)")])])] := by
  constructor
  · decide
  · decide

/-- C1 (amended): for each resolved property of a candidate with ordered
modifier list `[m1, …, mk]`, `twClassListToPandaStyles` produces the nested
object whose OUTERMOST key resolves the LAST-listed modifier (the fold wraps
in listed order, so the first modifier ends innermost); each modifier key is
resolved as the `_`-prefixed camel-cased name if registered, else the bare
camel-cased name if registered, else the raw modifier text. -/
theorem C1_theorem :
    (∀ (conds : List String) (mods : List String) (imp : Bool) (p v : String),
      nestedStyles conds ⟨mods, imp⟩ p v =
        nestKeys ((mods.map (resolveCondition conds)).reverse)
          (StyleVal.obj [(p, StyleVal.str v)])) ∧
    (∀ (conds : List String) (m1 m2 : String) (imp : Bool) (p v : String),
      nestedStyles conds ⟨[m1, m2], imp⟩ p v =
        StyleVal.obj [(resolveCondition conds m2,
          StyleVal.obj [(resolveCondition conds m1,
            StyleVal.obj [(p, StyleVal.str v)])])]) ∧
    (∀ (conds : List String) (m : String),
      ("_" ++ kebabToCamel m) ∈ conds →
        resolveCondition conds m = "_" ++ kebabToCamel m) ∧
    (∀ (conds : List String) (m : String),
      ("_" ++ kebabToCamel m) ∉ conds → kebabToCamel m ∈ conds →
        resolveCondition conds m = kebabToCamel m) ∧
    (∀ (conds : List String) (m : String),
      ("_" ++ kebabToCamel m) ∉ conds → kebabToCamel m ∉ conds →
        resolveCondition conds m = m) ∧
    (∀ (gm : String → List MatchingToken) (conds : List String) (cl : List String),
      twClassListToPandaStyles gm conds cl =
        cl.flatMap (fun cn => (gm cn).map (fun m =>
          (m, nestedStyles conds m.classInfo m.propName
                (formatTokenValue m.propName m.tokenName m.rawValue))))) := by
  refine ⟨?_, ?_, ?_, ?_, ?_, ?_⟩
  · intro conds mods imp p v
    exact foldlWrapEqNestKeys (resolveCondition conds) mods _
  · intro conds m1 m2 imp p v
    rfl
  · intro conds m hmem
    simp [resolveCondition, hmem]
  · intro conds m hpre hbare
    simp [resolveCondition, hpre, hbare]
  · intro conds m hpre hbare
    simp [resolveCondition, hpre, hbare]
  · intro gm conds cl
    exact twClassListToPandaStylesEqBind gm conds cl

/-- C1 witness: the amended theorem applied at a concrete two-modifier
candidate. -/
theorem C1_witness :
    ("_" ++ kebabToCamel "dark") ∈ ["_dark", "_hover"] ∧
    resolveCondition ["_dark", "_hover"] "dark" = "_" ++ kebabToCamel "dark" :=
  ⟨by decide, C1_theorem.2.2.1 ["_dark", "_hover"] "dark" (by decide)⟩

theorem strLengthAppend (a b : String) : (a ++ b).length = a.length + b.length := by
  cases a with
  | mk da =>
    cases b with
    | mk db => exact List.length_append da db

/-- A `token(category.path, fallback)` string is strictly longer than its
fallback, hence never equal to it. -/
theorem tokenStringNeRaw (cat t r : String) :
    "token(" ++ cat ++ "." ++ t ++ ", " ++ r ++ ")" ≠ r := by
  intro h
  have hlen := congrArg String.length h
  simp only [strLengthAppend] at hlen
  have h6 : ("token(" : String).length = 6 := by decide
  have h1 : ("." : String).length = 1 := by decide
  have h2 : (", " : String).length = 2 := by decide
  have h3 : (")" : String).length = 1 := by decide
  omega

/-- When any of the three wrapping conditions fails, `formatTokenValue`
returns the raw value unchanged. -/
theorem formatTokenValueRaw (p t r : String)
    (h : ¬(t ≠ r ∧ isResolvableValue r = true ∧ (lookupCategory p).isSome = true)) :
    formatTokenValue p t r = r := by
  unfold formatTokenValue
  by_cases h1 : t = r
  · simp [h1]
  · simp only [h1, if_false, if_neg]
    by_cases h2 : isResolvableValue r
    · have h3 : ¬(lookupCategory p).isSome = true := by
        intro h3
        exact h ⟨h1, h2, h3⟩
      match hl : lookupCategory p with
      | some cat => rw [hl] at h3; simp at h3
      | none => simp [h2]
    · simp [h2]

/-- C3: the output of `formatTokenValue` is the wrapped
`token(category.tokenPath, rawValue)` string if and only if the token path
differs from the raw value, the raw value is a usable literal CSS value (in
particular free of `var(--` references), and the property has an entry in
the fixed category table; otherwise the raw value is emitted unwrapped — in
particular a variable resolving only to another unresolved variable is
emitted as the raw variable reference text. -/
theorem C3_theorem : ∀ (p t r : String),
    ((∃ cat, lookupCategory p = some cat ∧
        formatTokenValue p t r = "token(" ++ cat ++ "." ++ t ++ ", " ++ r ++ ")")
      ↔ (t ≠ r ∧ isResolvableValue r = true ∧ (lookupCategory p).isSome = true)) ∧
    (¬(t ≠ r ∧ isResolvableValue r = true ∧ (lookupCategory p).isSome = true) →
      formatTokenValue p t r = r) ∧
    (isResolvableValue r = true → containsVarRef r = false) ∧
    (formatTokenValue "maxWidth" "lg" "var(--container-lg)" = "var(--container-lg)") := by
  intro p t r
  refine ⟨⟨?_, ?_⟩, formatTokenValueRaw p t r, ?_, by decide⟩
  · rintro ⟨cat, hcat, hout⟩
    by_cases hcond : t ≠ r ∧ isResolvableValue r = true ∧ (lookupCategory p).isSome = true
    · exact hcond
    · rw [formatTokenValueRaw p t r hcond] at hout
      exact absurd hout.symm (tokenStringNeRaw cat t r)
  · rintro ⟨h1, h2, h3⟩
    match hl : lookupCategory p with
    | some cat =>
      refine ⟨cat, rfl, ?_⟩
      unfold formatTokenValue
      simp [h1, h2, hl]
    | none => rw [hl] at h3; simp at h3
  · intro hres
    by_cases hv : containsVarRef r = true
    · unfold isResolvableValue at hres
      rw [hv] at hres
      simp at hres
    · simpa using hv

/-- C3 witness: the theorem applied at the spec's own example — a color
variable resolving to the literal `#3b82f6` is wrapped. -/
theorem C3_witness :
    (∃ cat, lookupCategory "color" = some cat ∧
      formatTokenValue "color" "blue.500" "#3b82f6" =
        "token(" ++ cat ++ "." ++ "blue.500" ++ ", " ++ "#3b82f6" ++ ")") :=
  ( C3_theorem "color" "blue.500" "#3b82f6").1.mpr (by decide)

theorem categorizeFoldSpec (resolver : String → Option String) :
    ∀ (cs : List String) (acc : CategorizedClasses),
      cs.Nodup → (∀ c ∈ cs, c ∉ acc.twClasses) →
      cs.foldl (categorizeStep resolver) acc =
        ⟨acc.twClasses ++
           cs.filter (fun c => !isTailwindMarkerClass c && (resolver c).isSome),
         acc.markerClasses ++ cs.filter (fun c => isTailwindMarkerClass c),
         acc.customClasses ++
           cs.filter (fun c => !isTailwindMarkerClass c && (resolver c).isNone)⟩ := by
  intro cs
  induction cs with
  | nil => intro acc _ _; simp
  | cons c rest ih =>
    intro acc hnodup hnotin
    have hrestnodup : rest.Nodup := (List.nodup_cons.mp hnodup).2
    have hcnotinrest : c ∉ rest := (List.nodup_cons.mp hnodup).1
    simp only [List.foldl_cons]
    by_cases hm : isTailwindMarkerClass c
    · have hstep : categorizeStep resolver acc c =
          { acc with markerClasses := acc.markerClasses ++ [c] } := by
        simp [categorizeStep, hm]
      rw [hstep]
      rw [ih ⟨acc.twClasses, acc.markerClasses ++ [c], acc.customClasses⟩
        hrestnodup (fun x hx => hnotin x (List.mem_cons_of_mem c hx))]
      simp [List.filter_cons, hm]
    · match hr : resolver c with
      | none =>
        have hstep : categorizeStep resolver acc c =
            { acc with customClasses := acc.customClasses ++ [c] } := by
          simp [categorizeStep, hm, hr]
        rw [hstep]
        rw [ih ⟨acc.twClasses, acc.markerClasses, acc.customClasses ++ [c]⟩
          hrestnodup (fun x hx => hnotin x (List.mem_cons_of_mem c hx))]
        simp [List.filter_cons, hm, hr]
      | some css =>
        have hcnotin : c ∉ acc.twClasses := hnotin c (List.mem_cons_self c rest)
        have hstep : categorizeStep resolver acc c =
            { acc with twClasses := acc.twClasses ++ [c] } := by
          simp [categorizeStep, hm, hr, hcnotin]
        rw [hstep]
        rw [ih ⟨acc.twClasses ++ [c], acc.markerClasses, acc.customClasses⟩
          hrestnodup (fun x hx => by
            simp only [List.mem_append, List.mem_singleton]
            rintro (hxa | hxc)
            · exact hnotin x (List.mem_cons_of_mem c hx) hxa
            · exact hcnotinrest (hxc ▸ hx))]
        simp [List.filter_cons, hm, hr]

/-- C2: `categorizeClasses` splits a class set into three disjoint parts whose
union is the set — marker classes (matched before the resolver is consulted),
custom classes (exactly the non-marker classes the resolver nulls on), and
Tailwind classes (the rest) — and the merged style object of
`classSetToStyleObject` is built from the Tailwind part only, with the
custom classes returned as the unconverted list. -/
theorem C2_theorem :
    ∀ (resolver : String → Option String) (getMatches : String → List MatchingToken)
      (conds : List String) (cs : List String), cs.Nodup →
      ((categorizeClasses resolver cs).markerClasses =
          cs.filter (fun c => isTailwindMarkerClass c)) ∧
      ((categorizeClasses resolver cs).customClasses =
          cs.filter (fun c => !isTailwindMarkerClass c && (resolver c).isNone)) ∧
      ((categorizeClasses resolver cs).twClasses =
          cs.filter (fun c => !isTailwindMarkerClass c && (resolver c).isSome)) ∧
      (∀ c ∈ cs, c ∈ (categorizeClasses resolver cs).twClasses ∨
          c ∈ (categorizeClasses resolver cs).markerClasses ∨
          c ∈ (categorizeClasses resolver cs).customClasses) ∧
      (∀ c, ¬(c ∈ (categorizeClasses resolver cs).twClasses ∧
              c ∈ (categorizeClasses resolver cs).markerClasses) ∧
            ¬(c ∈ (categorizeClasses resolver cs).twClasses ∧
              c ∈ (categorizeClasses resolver cs).customClasses) ∧
            ¬(c ∈ (categorizeClasses resolver cs).markerClasses ∧
              c ∈ (categorizeClasses resolver cs).customClasses)) ∧
      (∀ c ∈ cs, resolver c = none → c ∉ (categorizeClasses resolver cs).twClasses) ∧
      ((classSetToStyleObject resolver getMatches conds cs).1 =
        mergeStyles ((twClassListToPandaStyles getMatches conds
          ((categorizeClasses resolver cs).twClasses)).map (fun s => s.2))) ∧
      ((classSetToStyleObject resolver getMatches conds cs).2 =
        (categorizeClasses resolver cs).customClasses) := by
  intro resolver getMatches conds cs hnodup
  have hspec := categorizeFoldSpec resolver cs ⟨[], [], []⟩ hnodup (by simp)
  have htw : (categorizeClasses resolver cs).twClasses =
      cs.filter (fun c => !isTailwindMarkerClass c && (resolver c).isSome) := by
    simp [categorizeClasses, hspec]
  have hmk : (categorizeClasses resolver cs).markerClasses =
      cs.filter (fun c => isTailwindMarkerClass c) := by
    simp [categorizeClasses, hspec]
  have hcu : (categorizeClasses resolver cs).customClasses =
      cs.filter (fun c => !isTailwindMarkerClass c && (resolver c).isNone) := by
    simp [categorizeClasses, hspec]
  refine ⟨hmk, hcu, htw, ?_, ?_, ?_, rfl, rfl⟩
  · intro c hc
    rw [htw, hmk, hcu]
    by_cases hm : isTailwindMarkerClass c
    · right; left; exact List.mem_filter.mpr ⟨hc, by simp [hm]⟩
    · match hr : resolver c with
      | none => right; right; exact List.mem_filter.mpr ⟨hc, by simp [hm, hr]⟩
      | some css => left; exact List.mem_filter.mpr ⟨hc, by simp [hm, hr]⟩
  · intro c
    rw [htw, hmk, hcu]
    refine ⟨?_, ?_, ?_⟩
    · rintro ⟨h1, h2⟩
      have ha := (List.mem_filter.mp h1).2
      have hb := (List.mem_filter.mp h2).2
      simp only [Bool.and_eq_true, Bool.not_eq_true'] at ha
      exact absurd hb (by rw [ha.1]; simp)
    · rintro ⟨h1, h2⟩
      have ha := (List.mem_filter.mp h1).2
      have hb := (List.mem_filter.mp h2).2
      simp only [Bool.and_eq_true] at ha hb
      have h3 := ha.2
      have h4 := hb.2
      cases hres : resolver c with
      | none => rw [hres] at h3; simp at h3
      | some v => rw [hres] at h4; simp at h4
    · rintro ⟨h1, h2⟩
      have ha := (List.mem_filter.mp h1).2
      have hb := (List.mem_filter.mp h2).2
      simp only [Bool.and_eq_true, Bool.not_eq_true'] at hb
      exact absurd ha (by rw [hb.1]; simp)
  · intro c _ hr hmem
    rw [htw] at hmem
    have := (List.mem_filter.mp hmem).2
    simp [hr] at this

/-- C2 witness: the theorem applied to a concrete class set containing one
marker class, one resolvable utility and one custom class. -/
theorem C2_witness :
    (["group", "flex", "my-widget"] : List String).Nodup ∧
    (categorizeClasses
        (fun c => if c = "flex" then some ".flex\x7bdisplay:flex\x7d" else none)
        ["group", "flex", "my-widget"]).markerClasses =
      (["group", "flex", "my-widget"].filter (fun c => isTailwindMarkerClass c)) :=
  ⟨by decide,
    ( C2_theorem (fun c => if c = "flex" then some ".flex\x7bdisplay:flex\x7d" else none)
      (fun _ => []) [] ["group", "flex", "my-widget"] (by decide)).1⟩

theorem gspOuterGroupsGe2 (all : List PatternM) :
    ∀ (l : List PatternM) (used : List String) (g : List PatternM),
      g ∈ gspOuter all l used → 2 ≤ g.length := by
  intro l
  induction l with
  | nil => intro used g hg; simp [gspOuter] at hg
  | cons p rest ih =>
    intro used g hg
    simp only [gspOuter] at hg
    split at hg
    · exact ih _ _ hg
    · split at hg
      case isTrue hlen =>
        rcases List.mem_cons.mp hg with h1 | h2
        · exact h1 ▸ hlen
        · exact ih _ _ h2
      case isFalse => exact ih _ _ hg

/-- C4 counterexample: two patterns whose class sets have Jaccard similarity
exactly 0.5 are NOT placed in the same group — the absorption test is the
strict `similarity > 0.5`, so each stays a singleton and both groups are
discarded. -/
theorem C4_counterexample :
    calculateSimilarity ["a"] ["a", "b"] = 1/2 ∧
    groupSimilarPatterns [⟨"A", ["a"]⟩, ⟨"B", ["a", "b"]⟩] = [] := by
  refine ⟨rfl, ?_⟩
  have hsim : ¬((2:ℚ)⁻¹ < calculateSimilarity ["a"] ["a", "b"]) := by
    rw [show calculateSimilarity ["a"] ["a", "b"] = 1/2 from rfl]
    norm_num
  simp [groupSimilarPatterns, gspOuter, gspInner, hsim]

/-- C4 (amended): in the greedy single-pass clustering, two patterns are
grouped together exactly when their Jaccard similarity STRICTLY exceeds 0.5
(similarity exactly 0.5 — and a fortiori 0.49 — does not qualify); a
not-yet-grouped pattern joins the first qualifying group in iteration order,
and singleton groups are discarded. -/
theorem C4_theorem :
    (∀ p q : PatternM, p.id ≠ q.id →
      groupSimilarPatterns [p, q] =
        (if (1:ℚ)/2 < calculateSimilarity p.classes q.classes then [[p, q]] else [])) ∧
    (∀ (pats : List PatternM) (g : List PatternM),
      g ∈ groupSimilarPatterns pats → 2 ≤ g.length) ∧
    (∀ p q r : PatternM, p.id ≠ q.id → p.id ≠ r.id → q.id ≠ r.id →
      (1:ℚ)/2 < calculateSimilarity p.classes q.classes →
      calculateSimilarity p.classes r.classes ≤ 1/2 →
      groupSimilarPatterns [p, q, r] = [[p, q]]) := by
  refine ⟨?_, ?_, ?_⟩
  · intro p q hne
    have hne2 : ¬(q.id = p.id) := fun h => hne h.symm
    by_cases hs : (2:ℚ)⁻¹ < calculateSimilarity p.classes q.classes
    · rw [if_pos (by simpa using hs)]
      simp [groupSimilarPatterns, gspOuter, gspInner, hne2, hs]
    · rw [if_neg (by simpa using hs)]
      simp [groupSimilarPatterns, gspOuter, gspInner, hne2, hs]
  · intro pats g hg
    exact gspOuterGroupsGe2 pats pats [] g hg
  · intro p q r hpq hpr hqr hsimq hsimr
    have hq2 : ¬(q.id = p.id) := fun h => hpq h.symm
    have hr2 : ¬(r.id = p.id) := fun h => hpr h.symm
    have hr3 : ¬(r.id = q.id) := fun h => hqr h.symm
    have hsq : (2:ℚ)⁻¹ < calculateSimilarity p.classes q.classes := by simpa using hsimq
    have hsr : ¬((2:ℚ)⁻¹ < calculateSimilarity p.classes r.classes) := by
      simpa using not_lt.mpr hsimr
    simp [groupSimilarPatterns, gspOuter, gspInner, hq2, hr2, hr3, hsq, hsr]

/-- C4 witness: the amended characterization applied to two concrete
patterns with Jaccard similarity 3/4. -/
theorem C4_witness :
    groupSimilarPatterns [⟨"A", ["a", "b", "c"]⟩, ⟨"B", ["a", "b", "c", "d"]⟩] =
      (if (1:ℚ)/2 <
          calculateSimilarity
            (PatternM.mk "A" ["a", "b", "c"]).classes
            (PatternM.mk "B" ["a", "b", "c", "d"]).classes
        then [[⟨"A", ["a", "b", "c"]⟩, ⟨"B", ["a", "b", "c", "d"]⟩]] else []) :=
  C4_theorem.1 ⟨"A", ["a", "b", "c"]⟩ ⟨"B", ["a", "b", "c", "d"]⟩ (by decide)

/-- C6: the design-system resolver is memoized keyed by the derived CSS
text — a second call whose input derives the same CSS text returns the
identical cached context without reconstructing, and reconstruction happens
only when the cache is empty (initially or after an explicit
`clearTailwindContextCache`) or the derived text differs from the cached
key. -/
theorem C6_theorem :
    (∀ (s : TwCacheState) (input input2 : CssOrConfig),
      deriveCss input2 = deriveCss input →
      createTailwindContext ((createTailwindContext s input).2.1) input2 =
        ((createTailwindContext s input).1,
         (createTailwindContext s input).2.1, false)) ∧
    (∀ (s : TwCacheState) (input : CssOrConfig),
      (createTailwindContext s input).2.2 = true →
      s.cachedDesignSystem = none ∨ s.cachedCss ≠ some (deriveCss input)) ∧
    (∀ (s : TwCacheState) (input : CssOrConfig),
      (createTailwindContext (clearTailwindContextCache s) input).2.2 = true) := by
  refine ⟨?_, ?_, ?_⟩
  · intro s input input2 heq
    cases hds : s.cachedDesignSystem with
    | none => simp [createTailwindContext, hds, heq]
    | some d =>
      by_cases hcss : s.cachedCss = some (deriveCss input)
      · simp [createTailwindContext, hds, hcss, heq]
      · simp [createTailwindContext, hds, hcss, heq]
  · intro s input hrebuilt
    cases hds : s.cachedDesignSystem with
    | none => exact Or.inl rfl
    | some d =>
      by_cases hcss : s.cachedCss = some (deriveCss input)
      · rw [createTailwindContext] at hrebuilt
        simp [hds, hcss] at hrebuilt
      · exact Or.inr hcss
  · intro s input
    simp [createTailwindContext, clearTailwindContextCache]

/-- C6 witness: the caching theorem applied to a concrete first/second call
pair whose inputs both derive the default CSS text. -/
theorem C6_witness :
    createTailwindContext ((createTailwindContext ⟨none, none, 0⟩ CssOrConfig.noArg).2.1)
        CssOrConfig.objArg =
      ((createTailwindContext ⟨none, none, 0⟩ CssOrConfig.noArg).1,
       (createTailwindContext ⟨none, none, 0⟩ CssOrConfig.noArg).2.1, false) :=
  C6_theorem.1 ⟨none, none, 0⟩ CssOrConfig.noArg CssOrConfig.objArg rfl

/-! Generic lemmas about the insertion-ordered `assocUpdate` map model. -/

theorem assocUpdate_lookup_self {α : Type} (k : String) (f : Option α → α)
    (l : List (String × α)) :
    (assocUpdate k f l).lookup k = some (f (l.lookup k)) := by
  induction l with
  | nil => simp [assocUpdate, List.lookup]
  | cons kv rest ih =>
    obtain ⟨k2, v⟩ := kv
    by_cases h : k2 = k
    · subst h
      simp [assocUpdate, List.lookup]
    · have hne : (k == k2) = false := by simp [Ne.symm h]
      simp [assocUpdate, h, List.lookup, hne, ih]

theorem assocUpdate_lookup_ne {α : Type} (k k2 : String) (hne : k2 ≠ k)
    (f : Option α → α) (l : List (String × α)) :
    (assocUpdate k f l).lookup k2 = l.lookup k2 := by
  induction l with
  | nil =>
    have hb : (k2 == k) = false := by simp [hne]
    simp [assocUpdate, List.lookup, hb]
  | cons kv rest ih =>
    obtain ⟨k3, v⟩ := kv
    by_cases h : k3 = k
    · subst h
      have hne2 : (k2 == k3) = false := by simp [hne]
      simp [assocUpdate, List.lookup, hne2]
    · by_cases h2 : k2 = k3
      · subst h2
        simp [assocUpdate, h, List.lookup]
      · have hne2 : (k2 == k3) = false := by simp [h2]
        simp [assocUpdate, h, List.lookup, hne2, ih]

theorem assocUpdate_forall {α : Type} (P : α → Prop) (k : String)
    (f : Option α → α) :
    ∀ (l : List (String × α)), (∀ x ∈ l, P x.2) → (∀ e : Option α, P (f e)) →
      ∀ x ∈ assocUpdate k f l, P x.2 := by
  intro l
  induction l with
  | nil =>
    intro _ hf x hx
    simp only [assocUpdate, List.mem_singleton] at hx
    subst hx
    exact hf none
  | cons kv rest ih =>
    obtain ⟨k2, v⟩ := kv
    intro hl hf x hx
    by_cases h : k2 = k
    · subst h
      simp [assocUpdate] at hx
      rcases hx with hx | hx
      · rw [hx]; exact hf _
      · exact hl x (List.mem_cons_of_mem _ hx)
    · simp [assocUpdate, h] at hx
      rcases hx with hx | hx
      · rw [hx]; exact hl _ (List.mem_cons_self _ _)
      · exact ih (fun y hy => hl y (List.mem_cons_of_mem _ hy)) hf x hx

theorem assocUpdate_ne_nil {α : Type} (k : String) (f : Option α → α)
    (l : List (String × α)) : assocUpdate k f l ≠ [] := by
  cases l with
  | nil => simp [assocUpdate]
  | cons kv rest =>
    obtain ⟨k2, v⟩ := kv
    by_cases h : k2 = k <;> simp [assocUpdate, h]

theorem lookup_none_iff_not_mem_keys {α : Type} (k : String) (l : List (String × α)) :
    l.lookup k = none ↔ k ∉ l.map Prod.fst := by
  induction l with
  | nil => simp [List.lookup]
  | cons kv rest ih =>
    obtain ⟨k2, v⟩ := kv
    by_cases h : k = k2
    · subst h
      simp [List.lookup]
    · have hne : (k == k2) = false := by simp [h]
      simp [List.lookup, hne, ih, h]

theorem assocUpdate_keys {α : Type} (k : String) (f : Option α → α)
    (l : List (String × α)) :
    (assocUpdate k f l).map Prod.fst =
      (if (l.lookup k).isSome then l.map Prod.fst else l.map Prod.fst ++ [k]) := by
  induction l with
  | nil => simp [assocUpdate, List.lookup]
  | cons kv rest ih =>
    obtain ⟨k2, v⟩ := kv
    by_cases h : k2 = k
    · subst h
      simp [assocUpdate, List.lookup]
    · have hne : (k == k2) = false := by simp [Ne.symm h]
      simp only [assocUpdate, if_neg h, List.map_cons, List.lookup, hne, ih]
      split <;> simp

theorem assocUpdate_keys_nodup {α : Type} (k : String) (f : Option α → α)
    (l : List (String × α)) (h : (l.map Prod.fst).Nodup) :
    ((assocUpdate k f l).map Prod.fst).Nodup := by
  rw [assocUpdate_keys]
  split
  · exact h
  case isFalse hnone =>
    have hnotmem : k ∉ l.map Prod.fst := by
      rw [← lookup_none_iff_not_mem_keys]
      cases hl : l.lookup k
      · rfl
      · rw [hl] at hnone; simp at hnone
    simp [List.nodup_append, h, hnotmem]

theorem mem_iff_lookup_of_keys_nodup {α : Type} (l : List (String × α))
    (hnodup : (l.map Prod.fst).Nodup) (k : String) (v : α) :
    (k, v) ∈ l ↔ l.lookup k = some v := by
  induction l with
  | nil => simp [List.lookup]
  | cons kv rest ih =>
    obtain ⟨k2, v2⟩ := kv
    simp only [List.map_cons, List.nodup_cons] at hnodup
    by_cases h : k = k2
    · subst h
      simp only [List.lookup, beq_self_eq_true, List.mem_cons]
      constructor
      · rintro (h1 | h1)
        · injection h1 with _ h2; rw [h2]
        · exact absurd (List.mem_map_of_mem Prod.fst h1) hnodup.1
      · intro h1
        injection h1 with h2
        left; rw [h2]
    · have hne : (k == k2) = false := by simp [h]
      simp only [List.lookup, hne, List.mem_cons]
      rw [ih hnodup.2]
      constructor
      · rintro (h1 | h1)
        · injection h1 with h2 _; exact absurd h2 h
        · exact h1
      · intro h1; right; exact h1

/-! Lemmas for the greedy max-scan of `inferRecipeName`. -/

theorem maxScanSpec :
    ∀ (counts : List (String × Nat)) (best : String × Nat),
      (counts.foldl (fun b kv => if b.2 < kv.2 then kv else b) best = best ∨
        counts.foldl (fun b kv => if b.2 < kv.2 then kv else b) best ∈ counts) ∧
      best.2 ≤ (counts.foldl (fun b kv => if b.2 < kv.2 then kv else b) best).2 ∧
      (∀ kv ∈ counts,
        kv.2 ≤ (counts.foldl (fun b kv => if b.2 < kv.2 then kv else b) best).2) := by
  intro counts
  induction counts with
  | nil => intro best; simp
  | cons kv rest ih =>
    intro best
    simp only [List.foldl_cons]
    by_cases h : best.2 < kv.2
    · rw [if_pos h]
      obtain ⟨hmem, hle, hmax⟩ := ih kv
      refine ⟨?_, ?_, ?_⟩
      · rcases hmem with h1 | h1
        · right; rw [h1]; exact List.mem_cons_self _ _
        · right; exact List.mem_cons_of_mem _ h1
      · exact le_trans (le_of_lt h) hle
      · intro kv2 hkv2
        rcases List.mem_cons.mp hkv2 with h2 | h2
        · rw [h2]; exact hle
        · exact hmax kv2 h2
    · rw [if_neg h]
      obtain ⟨hmem, hle, hmax⟩ := ih best
      refine ⟨?_, ?_, ?_⟩
      · rcases hmem with h1 | h1
        · left; exact h1
        · right; exact List.mem_cons_of_mem _ h1
      · exact hle
      · intro kv2 hkv2
        rcases List.mem_cons.mp hkv2 with h2 | h2
        · rw [h2]; exact le_trans (not_lt.mp h) hle
        · exact hmax kv2 h2

theorem stemCountsValuesPos (L : List String) :
    ∀ x ∈ stemCounts L, 1 ≤ x.2 := by
  have hgen : ∀ (acc : List (String × Nat)), (∀ x ∈ acc, 1 ≤ x.2) →
      ∀ x ∈ L.foldl
        (fun acc cls =>
          if countedStem cls then
            assocUpdate (classStem cls) (fun e => (e.getD 0) + 1) acc
          else acc) acc, 1 ≤ x.2 := by
    induction L with
    | nil => intro acc hacc x hx; exact hacc x hx
    | cons cls rest ih =>
      intro acc hacc x hx
      simp only [List.foldl_cons] at hx
      by_cases hc : countedStem cls
      · rw [if_pos hc] at hx
        exact ih _ (assocUpdate_forall _ _ _ _ hacc (fun e => by cases e <;> simp)) x hx
        
      · rw [if_neg hc] at hx
        exact ih _ hacc x hx
  intro x hx
  exact hgen [] (by simp) x hx

theorem stemCountsNilIff (L : List String) :
    stemCounts L = [] ↔ ∀ cls ∈ L, countedStem cls = false := by
  have hgen : ∀ (acc : List (String × Nat)),
      (L.foldl
        (fun acc cls =>
          if countedStem cls then
            assocUpdate (classStem cls) (fun e => (e.getD 0) + 1) acc
          else acc) acc = [] ↔ (acc = [] ∧ ∀ cls ∈ L, countedStem cls = false)) := by
    induction L with
    | nil => intro acc; simp
    | cons cls rest ih =>
      intro acc
      simp only [List.foldl_cons]
      by_cases hc : countedStem cls
      · rw [if_pos hc, ih]
        constructor
        · rintro ⟨h1, _⟩
          exact absurd h1 (assocUpdate_ne_nil _ _ _)
        · rintro ⟨_, hall⟩
          exact absurd (hall cls (List.mem_cons_self _ _)) (by simp [hc])
      · rw [if_neg hc, ih]
        constructor
        · rintro ⟨h1, h2⟩
          refine ⟨h1, ?_⟩
          intro c hc2
          rcases List.mem_cons.mp hc2 with h3 | h3
          · subst h3; simpa using hc
          · exact h2 c h3
        · rintro ⟨h1, h2⟩
          exact ⟨h1, fun c hc2 => h2 c (List.mem_cons_of_mem _ hc2)⟩
  rw [stemCounts, hgen]
  simp

theorem stemCountsLookup (L : List String) (q : String) :
    ((stemCounts L).lookup q).getD 0 =
      L.countP (fun cls => countedStem cls && decide (classStem cls = q)) := by
  have hgen : ∀ (acc : List (String × Nat)),
      ((L.foldl
        (fun acc cls =>
          if countedStem cls then
            assocUpdate (classStem cls) (fun e => (e.getD 0) + 1) acc
          else acc) acc).lookup q).getD 0 =
        (acc.lookup q).getD 0 +
          L.countP (fun cls => countedStem cls && decide (classStem cls = q)) := by
    induction L with
    | nil => intro acc; simp
    | cons cls rest ih =>
      intro acc
      simp only [List.foldl_cons]
      by_cases hc : countedStem cls
      · rw [if_pos hc]
        by_cases hq : classStem cls = q
        · subst hq
          rw [ih, List.countP_cons]
          have hcond : (countedStem cls && decide (classStem cls = classStem cls)) = true := by
            simp [hc]
          rw [hcond, if_pos rfl, assocUpdate_lookup_self]
          simp
          omega
        · rw [ih, List.countP_cons]
          have hcond : (countedStem cls && decide (classStem cls = q)) = false := by
            simp [hq]
          rw [hcond]
          rw [assocUpdate_lookup_ne (classStem cls) q (fun h => hq h.symm) _ _]
          simp
      · rw [if_neg hc]
        rw [ih, List.countP_cons]
        have : (countedStem cls && decide (classStem cls = q)) = false := by
          simp [hc]
        rw [this]
        simp
  rw [stemCounts, hgen]
  simp [List.lookup]

/-- C9 counterexample: in a group whose only class is `flex`, no dash-prefix
recurs (the single stem occurs exactly once), yet `inferRecipeName` returns
`"flex"`, not the generic placeholder `"component"` — the fallback fires only
when no stem longer than two characters exists at all, not when no stem
recurs. -/
theorem C9_counterexample :
    inferRecipeName [⟨"A", ["flex"]⟩] = "flex" ∧
    (allClassesOf [⟨"A", ["flex"]⟩]).countP
      (fun cls => decide (classStem cls = "flex")) = 1 ∧
    "flex" ≠ "component" := by
  refine ⟨by decide, by decide, by decide⟩

/-- C9 (amended): the inferred recipe name is a stem (text before the first
dash) of maximal occurrence count among the group's class-name stems longer
than two characters, where each stem's count is its number of occurrences;
the generic placeholder `"component"` is returned exactly when no class
contributes a stem longer than two characters — a stem occurring only once
still wins over the placeholder. -/
theorem C9_theorem :
    (∀ pats : List PatternM,
      (∀ cls ∈ allClassesOf pats, countedStem cls = false) →
        inferRecipeName pats = "component") ∧
    (∀ pats : List PatternM,
      (∃ cls ∈ allClassesOf pats, countedStem cls = true) →
      ∃ n, (inferRecipeName pats, n) ∈ stemCounts (allClassesOf pats) ∧
        1 ≤ n ∧
        (∀ kv ∈ stemCounts (allClassesOf pats), kv.2 ≤ n)) ∧
    (∀ (L : List String) (q : String),
      ((stemCounts L).lookup q).getD 0 =
        L.countP (fun cls => countedStem cls && decide (classStem cls = q))) := by
  refine ⟨?_, ?_, fun L q => stemCountsLookup L q⟩
  · intro pats h
    unfold inferRecipeName
    rw [(stemCountsNilIff _).mpr h]
    rfl
  · rintro pats ⟨cls, hmem, hcnt⟩
    have hne : stemCounts (allClassesOf pats) ≠ [] := by
      intro hnil
      have := (stemCountsNilIff _).mp hnil cls hmem
      rw [hcnt] at this
      exact Bool.true_eq_false.mp this
    obtain ⟨hmemscan, _, hmax⟩ :=
      maxScanSpec (stemCounts (allClassesOf pats)) ("component", 0)
    have hR : maxStem (stemCounts (allClassesOf pats)) ∈ stemCounts (allClassesOf pats) := by
      rcases hmemscan with h1 | h1
      · exfalso
        match hcounts : stemCounts (allClassesOf pats), hne with
        | kv0 :: rest, _ =>
          have hpos : 1 ≤ kv0.2 :=
            stemCountsValuesPos (allClassesOf pats) kv0
              (by rw [hcounts]; exact List.mem_cons_self _ _)
          have hle : kv0.2 ≤ (maxStem (stemCounts (allClassesOf pats))).2 := by
            apply hmax
            rw [hcounts]
            exact List.mem_cons_self _ _
          unfold maxStem at hle
          rw [h1] at hle
          simp at hle
          omega
      · exact h1
    refine ⟨(maxStem (stemCounts (allClassesOf pats))).2, ?_, ?_, ?_⟩
    · simpa using hR
    · exact stemCountsValuesPos (allClassesOf pats) _ hR
    · intro kv hkv
      exact hmax kv hkv

/-- C9 witness: the amended theorem applied to a group whose only stems have
length at most two, where the placeholder name is returned. -/
theorem C9_witness :
    (∀ cls ∈ allClassesOf [⟨"A", ["p-4", "mx-2"]⟩], countedStem cls = false) ∧
    inferRecipeName [⟨"A", ["p-4", "mx-2"]⟩] = "component" :=
  ⟨by decide, C9_theorem.1 [⟨"A", ["p-4", "mx-2"]⟩] (by decide)⟩

theorem chunkAuxFold {α β : Type} (g : α → β) :
    ∀ (fuel : Nat) (l : List α) (n : Nat) (acc : List β), l.length ≤ fuel →
      (chunkAux fuel l n).foldl (fun a c => a ++ c.map g) acc = acc ++ l.map g := by
  intro fuel
  induction fuel with
  | zero =>
    intro l n acc hl
    have hnil : l = [] := List.length_eq_zero.mp (Nat.le_zero.mp hl)
    subst hnil
    simp [chunkAux]
  | succ fuel ih =>
    intro l n acc hl
    cases l with
    | nil => simp [chunkAux]
    | cons a rest =>
      simp only [chunkAux, List.foldl_cons]
      rw [ih ((a :: rest).drop (n + 1)) n (acc ++ ((a :: rest).take (n + 1)).map g)
        (by simp only [List.length_drop, List.length_cons] at hl ⊢; omega)]
      rw [List.append_assoc, ← List.map_append, List.take_append_drop]

/-- C7 counterexample: in `analyzeProject`, a file whose processing throws is
caught and silently skipped — the returned analysis contains NO result entry
and no error field for it (here `good.tsx` is the only file reported and
`totalFiles` is 1 out of 2 scanned files), contradicting the claim that the
failure is recorded through an explicit error result field. -/
theorem C7_counterexample :
    (analyzeProjectModel
        ⟨fun f => if f = "bad.tsx" then Except.error "EIO"
            else Except.ok ⟨["flex"], [], ["flex"]⟩,
          fun _ => [], [], false, id⟩
        ["bad.tsx", "good.tsx"] 2).files.map (fun fa => fa.filePath) = ["good.tsx"] ∧
    (analyzeProjectModel
        ⟨fun f => if f = "bad.tsx" then Except.error "EIO"
            else Except.ok ⟨["flex"], [], ["flex"]⟩,
          fun _ => [], [], false, id⟩
        ["bad.tsx", "good.tsx"] 2).summary.totalFiles = 1 := by
  refine ⟨by decide, by decide⟩

/-- C7 (amended): in BATCH processing a per-file throw is caught and recorded
against that file alone as an `"error"` result with the thrown message, the
error tally counts exactly those results, chunked processing is transparent
(the result list is the per-file map, so every other file's result is
unaffected); in PROJECT ANALYSIS a throwing file is caught and skipped
entirely — the analysis equals the run without that file, with no error
record. -/
theorem C7_theorem :
    (∀ (o : BatchOracles) (cfg : BatchConfig) (files : List String) (k : Nat),
      0 < k →
      (batchProcessM o cfg files k).files = files.map (processFileM o cfg)) ∧
    (∀ (o : BatchOracles) (cfg : BatchConfig) (f e : String),
      o.readFile (cfg.cwd ++ "/" ++ f) = .error e →
      (processFileM o cfg f).status = "error" ∧
        (processFileM o cfg f).error = some e) ∧
    (∀ (o : BatchOracles) (cfg : BatchConfig) (files : List String) (k : Nat),
      (batchProcessM o cfg files k).summary.errors =
        ((batchProcessM o cfg files k).files.filter
          (fun r => r.status = "error")).length) ∧
    (∀ (o : AnalyzeOracles) (minCount : Nat) (xs ys : List String) (f e : String),
      o.runFile f = .error e →
      analyzeProjectModel o (xs ++ f :: ys) minCount =
        analyzeProjectModel o (xs ++ ys) minCount) := by
  refine ⟨?_, ?_, ?_, ?_⟩
  · intro o cfg files k hk
    cases k with
    | zero => omega
    | succ n =>
      show (chunkAux files.length files n).foldl
          (fun acc chunk => acc ++ chunk.map (processFileM o cfg)) [] =
        files.map (processFileM o cfg)
      rw [chunkAuxFold (processFileM o cfg) files.length files n [] (le_refl _)]
      simp
  · intro o cfg f e h
    constructor
    · simp [processFileM, h, mkErrorResult]
    · simp [processFileM, h, mkErrorResult]
  · intro o cfg files k
    rfl
  · intro o minCount xs ys f e h
    have hstep : ∀ st, analyzeFileStep o st f = st := by
      intro st
      simp [analyzeFileStep, h]
    unfold analyzeProjectModel
    rw [List.foldl_append, List.foldl_append, List.foldl_cons, hstep]

/-- C7 witness: chunk transparency applied at a concrete one-file batch. -/
theorem C7_witness :
    (batchProcessM
        ⟨fun _ => Except.ok "x", fun _ _ => Except.ok ("y", []),
          fun _ _ => Except.ok "y", fun _ _ => Except.ok ()⟩
        ⟨".", none, true, [".html", ".htm"], [".ts", ".tsx", ".js", ".jsx"]⟩
        ["a.tsx"] 4).files =
      ["a.tsx"].map (processFileM
        ⟨fun _ => Except.ok "x", fun _ _ => Except.ok ("y", []),
          fun _ _ => Except.ok "y", fun _ _ => Except.ok ()⟩
        ⟨".", none, true, [".html", ".htm"], [".ts", ".tsx", ".js", ".jsx"]⟩) :=
  C7_theorem.1
    ⟨fun _ => Except.ok "x", fun _ _ => Except.ok ("y", []),
      fun _ _ => Except.ok "y", fun _ _ => Except.ok ()⟩
    ⟨".", none, true, [".html", ".htm"], [".ts", ".tsx", ".js", ".jsx"]⟩
    ["a.tsx"] 4 (by decide)

/-- C8 counterexample: with one unconverted class and no detected pattern the
code reports 0.1 hours (`Math.ceil` of 1/6 of an hour in tenths), while
"1 minute converted to hours and ROUNDED to one decimal" is 0.0 hours — the
code rounds UP, not to nearest. -/
theorem C8_counterexample :
    (analyzeProjectModel
        ⟨fun _ => Except.ok ⟨["custom1"], [], ["custom1"]⟩, fun _ => [], [], false, id⟩
        ["a.tsx"] 2).summary.unconvertedClasses = 1 ∧
    (analyzeProjectModel
        ⟨fun _ => Except.ok ⟨["custom1"], [], ["custom1"]⟩, fun _ => [], [], false, id⟩
        ["a.tsx"] 2).summary.detectedPatterns = 0 ∧
    (analyzeProjectModel
        ⟨fun _ => Except.ok ⟨["custom1"], [], ["custom1"]⟩, fun _ => [], [], false, id⟩
        ["a.tsx"] 2).summary.estimatedEffortHours = 1/10 ∧
    roundNearestTenth (((1 : ℚ) * 1 + 0 * (1/2)) / 60) = 0 ∧
    (1 : ℚ)/10 ≠ 0 := by
  refine ⟨by decide, by decide, ?_, ?_, by norm_num⟩
  · have h : (analyzeProjectModel
        ⟨fun _ => Except.ok ⟨["custom1"], [], ["custom1"]⟩, fun _ => [], [], false, id⟩
        ["a.tsx"] 2).summary.estimatedEffortHours =
      ((⌈(((analyzeProjectModel
            ⟨fun _ => Except.ok ⟨["custom1"], [], ["custom1"]⟩, fun _ => [], [], false, id⟩
            ["a.tsx"] 2).summary.unconvertedClasses : ℚ) * 1 +
          ((analyzeProjectModel
            ⟨fun _ => Except.ok ⟨["custom1"], [], ["custom1"]⟩, fun _ => [], [], false, id⟩
            ["a.tsx"] 2).summary.detectedPatterns : ℚ) * (1 / 2)) / 60 * 10⌉ : ℚ) / 10) := rfl
    rw [h]
    rw [show (analyzeProjectModel
        ⟨fun _ => Except.ok ⟨["custom1"], [], ["custom1"]⟩, fun _ => [], [], false, id⟩
        ["a.tsx"] 2).summary.unconvertedClasses = 1 from by decide]
    rw [show (analyzeProjectModel
        ⟨fun _ => Except.ok ⟨["custom1"], [], ["custom1"]⟩, fun _ => [], [], false, id⟩
        ["a.tsx"] 2).summary.detectedPatterns = 0 from by decide]
    rw [show ((((1 : Nat) : ℚ)) * 1 + (((0 : Nat) : ℚ)) * (1 / 2)) / 60 * 10 = 1/6 from by
      norm_num]
    rw [show ⌈(1:ℚ)/6⌉ = 1 from by norm_num [Int.ceil_eq_iff]]
    norm_num
  · rw [roundNearestTenth]
    norm_num [round_eq]

/-- C8 (amended): the estimated effort equals the unique unconverted-class
count times 1 minute plus the detected-pattern count times 0.5 minute,
converted to hours and rounded UP (ceiling) to one decimal. -/
theorem C8_theorem :
    ∀ (o : AnalyzeOracles) (files : List String) (minCount : Nat),
      (analyzeProjectModel o files minCount).summary.estimatedEffortHours =
        ((⌈(((analyzeProjectModel o files minCount).summary.unconvertedClasses : ℚ) * 1 +
            ((analyzeProjectModel o files minCount).summary.detectedPatterns : ℚ) * (1 / 2)) /
            60 * 10⌉ : ℚ) / 10) :=
  fun _ _ _ => rfl

theorem assocUpdate_forall_strong {α : Type} (P : α → Prop) (k : String)
    (f : Option α → α)
    (hf : ∀ e : Option α, (∀ u, e = some u → P u) → P (f e)) :
    ∀ (l : List (String × α)), (∀ x ∈ l, P x.2) →
      ∀ x ∈ assocUpdate k f l, P x.2 := by
  intro l
  induction l with
  | nil =>
    intro _ x hx
    simp only [assocUpdate, List.mem_singleton] at hx
    rw [hx]
    exact hf none (fun u hu => Option.noConfusion hu)
  | cons kv rest ih =>
    obtain ⟨k2, v⟩ := kv
    intro hl x hx
    by_cases h : k2 = k
    · subst h
      simp [assocUpdate] at hx
      rcases hx with hx | hx
      · rw [hx]
        exact hf (some v) (fun u hu => by
          injection hu with hu2
          exact hu2 ▸ hl (k2, v) (List.mem_cons_self _ _))
      · exact hl x (List.mem_cons_of_mem _ hx)
    · simp [assocUpdate, h] at hx
      rcases hx with hx | hx
      · rw [hx]; exact hl _ (List.mem_cons_self _ _)
      · exact ih (fun y hy => hl y (List.mem_cons_of_mem _ hy)) x hx

theorem updateTokenUsagePreserves (fp : String)
    (tokens : List (String × TokenUsageM)) (occ : String × Option String)
    (h : ∀ x ∈ tokens,
      x.2.files.Nodup ∧ x.2.files.length ≤ x.2.count ∧ 1 ≤ x.2.count) :
    ∀ x ∈ updateTokenUsage fp tokens occ,
      x.2.files.Nodup ∧ x.2.files.length ≤ x.2.count ∧ 1 ≤ x.2.count := by
  unfold updateTokenUsage
  by_cases hempty : strTrim occ.1 = ""
  · simp only [hempty, if_pos rfl]
    exact h
  · simp only [hempty, if_neg hempty, if_false]
    apply assocUpdate_forall_strong
      (fun u => u.files.Nodup ∧ u.files.length ≤ u.count ∧ 1 ≤ u.count) _ _ ?_ tokens h
    intro e he
    match e with
    | none =>
      refine ⟨List.nodup_singleton fp, ?_, ?_⟩ <;> simp
    | some u =>
      obtain ⟨hnodup, hlen, hcnt⟩ := he u rfl
      refine ⟨?_, ?_, ?_⟩
      · show (if fp ∈ u.files then u.files else u.files ++ [fp]).Nodup
        by_cases hmem : fp ∈ u.files
        · rw [if_pos hmem]; exact hnodup
        · rw [if_neg hmem]
          simp [List.nodup_append, hnodup, hmem]
      · show (if fp ∈ u.files then u.files else u.files ++ [fp]).length ≤ u.count + 1
        by_cases hmem : fp ∈ u.files
        · rw [if_pos hmem]; omega
        · rw [if_neg hmem]
          simp only [List.length_append, List.length_singleton]
          omega
      · show 1 ≤ u.count + 1
        omega

theorem extractTokensPreserves (styles : StyleVal) (fp : String)
    (tokens : List (String × TokenUsageM))
    (h : ∀ x ∈ tokens,
      x.2.files.Nodup ∧ x.2.files.length ≤ x.2.count ∧ 1 ≤ x.2.count) :
    ∀ x ∈ extractTokensFromStyles styles fp tokens,
      x.2.files.Nodup ∧ x.2.files.length ≤ x.2.count ∧ 1 ≤ x.2.count := by
  unfold extractTokensFromStyles
  generalize tokenOccurrences styles = occs
  induction occs generalizing tokens with
  | nil => exact h
  | cons occ rest ih =>
    simp only [List.foldl_cons]
    exact ih _ (updateTokenUsagePreserves fp tokens occ h)

theorem analyzeStepTokensPreserves (o : AnalyzeOracles) (st : AnalyzeState)
    (f : String)
    (h : ∀ x ∈ st.allTokens,
      x.2.files.Nodup ∧ x.2.files.length ≤ x.2.count ∧ 1 ≤ x.2.count) :
    ∀ x ∈ (analyzeFileStep o st f).allTokens,
      x.2.files.Nodup ∧ x.2.files.length ≤ x.2.count ∧ 1 ≤ x.2.count := by
  unfold analyzeFileStep
  cases hrun : o.runFile f with
  | error e => exact h
  | ok res =>
    simp only []
    by_cases hconv : res.converted.isEmpty
    · simp only [hconv, if_pos rfl]
      exact h
    · simp only [hconv, if_neg hconv, if_false]
      by_cases hstyles :
          (twClassListToPandaStyles o.getMatches o.conditionKeys res.converted).isEmpty
      · simp only [hstyles, if_pos rfl]
        exact h
      · simp only [hstyles, if_neg hstyles, if_false]
        exact extractTokensPreserves _ _ _ h

theorem analyzeFoldTokensPreserves (o : AnalyzeOracles) :
    ∀ (files : List String) (st : AnalyzeState),
      (∀ x ∈ st.allTokens,
        x.2.files.Nodup ∧ x.2.files.length ≤ x.2.count ∧ 1 ≤ x.2.count) →
      ∀ x ∈ (files.foldl (analyzeFileStep o) st).allTokens,
        x.2.files.Nodup ∧ x.2.files.length ≤ x.2.count ∧ 1 ≤ x.2.count := by
  intro files
  induction files with
  | nil => intro st h; exact h
  | cons f rest ih =>
    intro st h
    simp only [List.foldl_cons]
    exact ih _ (analyzeStepTokensPreserves o st f h)

theorem mem_insertByCountTok (x t : TokenUsageM) :
    ∀ (l : List TokenUsageM), x ∈ insertByCountTok t l ↔ x = t ∨ x ∈ l := by
  intro l
  induction l with
  | nil => simp [insertByCountTok]
  | cons q rest ih =>
    simp only [insertByCountTok]
    split
    · simp
    · simp only [List.mem_cons, ih]
      tauto

theorem mem_sortTokensByCount_aux (x : TokenUsageM) :
    ∀ (l : List TokenUsageM) (acc : List TokenUsageM),
      x ∈ l.foldl (fun acc t => insertByCountTok t acc) acc ↔ x ∈ acc ∨ x ∈ l := by
  intro l
  induction l with
  | nil => intro acc; simp
  | cons t rest ih =>
    intro acc
    simp only [List.foldl_cons, ih, mem_insertByCountTok, List.mem_cons]
    tauto

/-- C10: every `TokenUsage` aggregate of project analysis has a
duplicate-free file list, a count at least the length of that list, and a
count of at least 1 — each `token()` occurrence increments the count while
the contributing file is appended only when not already present. -/
theorem C10_theorem :
    ∀ (o : AnalyzeOracles) (files : List String) (minCount : Nat)
      (u : TokenUsageM), u ∈ (analyzeProjectModel o files minCount).tokens →
      u.files.Nodup ∧ u.files.length ≤ u.count ∧ 1 ≤ u.count := by
  intro o files minCount u hu
  have hmem : u ∈ ((files.foldl (analyzeFileStep o) ⟨[], [], []⟩).allTokens.map
      (fun kv => kv.2)) := by
    have := (mem_sortTokensByCount_aux u _ []).mp hu
    simpa using this
  obtain ⟨kv, hkv, hkv2⟩ := List.mem_map.mp hmem
  have := analyzeFoldTokensPreserves o files ⟨[], [], []⟩ (by simp) kv hkv
  rw [hkv2] at this
  exact this

/-- C10 witness: the invariant theorem applied to the aggregate produced by a
concrete one-file run containing one `token()` reference. -/
theorem C10_witness :
    (⟨"colors", "blue.500", "#3b82f6", 1, ["f.tsx"]⟩ : TokenUsageM) ∈
      (analyzeProjectModel
        ⟨fun _ => Except.ok ⟨["a"], ["a"], []⟩,
          fun _ => [⟨"color", "blue.500", "#3b82f6", ⟨[], false⟩⟩], [], false, id⟩
        ["f.tsx"] 2).tokens ∧
    (⟨"colors", "blue.500", "#3b82f6", 1, ["f.tsx"]⟩ : TokenUsageM).files.Nodup ∧
    (⟨"colors", "blue.500", "#3b82f6", 1, ["f.tsx"]⟩ : TokenUsageM).files.length ≤
      (⟨"colors", "blue.500", "#3b82f6", 1, ["f.tsx"]⟩ : TokenUsageM).count ∧
    1 ≤ (⟨"colors", "blue.500", "#3b82f6", 1, ["f.tsx"]⟩ : TokenUsageM).count :=
  ⟨by decide,
    C10_theorem
      ⟨fun _ => Except.ok ⟨["a"], ["a"], []⟩,
        fun _ => [⟨"color", "blue.500", "#3b82f6", ⟨[], false⟩⟩], [], false, id⟩
      ["f.tsx"] 2 ⟨"colors", "blue.500", "#3b82f6", 1, ["f.tsx"]⟩ (by decide)⟩

theorem analyzeStepPatternsEq (o : AnalyzeOracles) (st : AnalyzeState) (f : String) :
    (analyzeFileStep o st f).classPatterns =
      match o.runFile f with
      | .error _ => st.classPatterns
      | .ok res =>
        if res.converted.isEmpty then st.classPatterns
        else if (twClassListToPandaStyles o.getMatches o.conditionKeys
            res.converted).isEmpty then st.classPatterns
        else
          assocUpdate (generatePatternId res.converted)
            (fun existing =>
              match existing with
              | some p =>
                { p with
                  count := p.count + 1
                  files := if f ∈ p.files then p.files else p.files ++ [f] }
              | none =>
                ⟨generatePatternId res.converted, res.converted,
                  (if o.shorthands then
                    o.shorthandsFn (mergeStyles ((twClassListToPandaStyles o.getMatches
                      o.conditionKeys res.converted).map (fun s => s.2)))
                  else
                    mergeStyles ((twClassListToPandaStyles o.getMatches
                      o.conditionKeys res.converted).map (fun s => s.2))),
                  1, [f]⟩)
            st.classPatterns := by
  unfold analyzeFileStep
  cases o.runFile f with
  | error e => rfl
  | ok res =>
    by_cases hconv : res.converted.isEmpty
    · simp [hconv]
    · by_cases hsty : (twClassListToPandaStyles o.getMatches o.conditionKeys
          res.converted).isEmpty
      · simp [hconv, hsty]
      · simp [hconv, hsty]

theorem patternCountStep (o : AnalyzeOracles) (st : AnalyzeState) (f h : String) :
    patternCountIn (analyzeFileStep o st f).classPatterns h =
      patternCountIn st.classPatterns h +
        (if observesPattern o h f = true then 1 else 0) := by
  unfold patternCountIn
  rw [analyzeStepPatternsEq]
  unfold observesPattern
  cases hrun : o.runFile f with
  | error e => simp
  | ok res =>
    simp only []
    by_cases hconv : res.converted.isEmpty
    · simp [hconv]
    · by_cases hsty : (twClassListToPandaStyles o.getMatches o.conditionKeys
          res.converted).isEmpty
      · simp [hconv, hsty]
      · rw [if_neg hconv, if_neg hsty]
        by_cases hid : generatePatternId res.converted = h
        · rw [← hid]
          rw [assocUpdate_lookup_self]
          cases hlook : st.classPatterns.lookup (generatePatternId res.converted) with
          | none => simp [hconv, hsty, hlook]
          | some p => simp [hconv, hsty, hlook]
        · have hne : h ≠ generatePatternId res.converted := fun he => hid he.symm
          rw [assocUpdate_lookup_ne _ _ hne]
          rw [if_neg (by simp [hid])]
          simp

theorem patternCountFold (o : AnalyzeOracles) (h : String) :
    ∀ (files : List String) (st : AnalyzeState),
      patternCountIn ((files.foldl (analyzeFileStep o) st).classPatterns) h =
        patternCountIn st.classPatterns h + files.countP (observesPattern o h) := by
  intro files
  induction files with
  | nil => intro st; simp
  | cons f rest ih =>
    intro st
    simp only [List.foldl_cons, List.countP_cons]
    rw [ih, patternCountStep]
    by_cases hobs : observesPattern o h f = true
    · simp only [hobs, if_pos rfl]
      simp
      omega
    · simp only [hobs, if_neg hobs]
      simp [hobs]

theorem assocUpdate_forall_pair {α : Type} (P : String × α → Prop) (k : String)
    (f : Option α → α)
    (hnew : P (k, f none))
    (hupd : ∀ (k2 : String) (v : α), k2 = k → P (k2, v) → P (k2, f (some v))) :
    ∀ (l : List (String × α)), (∀ x ∈ l, P x) → ∀ x ∈ assocUpdate k f l, P x := by
  intro l
  induction l with
  | nil =>
    intro _ x hx
    simp only [assocUpdate, List.mem_singleton] at hx
    rw [hx]
    exact hnew
  | cons kv rest ih =>
    obtain ⟨k2, v⟩ := kv
    intro hl x hx
    by_cases h : k2 = k
    · subst h
      simp [assocUpdate] at hx
      rcases hx with hx | hx
      · rw [hx]
        exact hupd k2 v rfl (hl (k2, v) (List.mem_cons_self _ _))
      · exact hl x (List.mem_cons_of_mem _ hx)
    · simp [assocUpdate, h] at hx
      rcases hx with hx | hx
      · rw [hx]; exact hl _ (List.mem_cons_self _ _)
      · exact ih (fun y hy => hl y (List.mem_cons_of_mem _ hy)) x hx

theorem analyzeStepPatternsCountPos (o : AnalyzeOracles) (st : AnalyzeState)
    (f : String) (hP : ∀ x ∈ st.classPatterns, 1 ≤ x.2.count) :
    ∀ x ∈ (analyzeFileStep o st f).classPatterns, 1 ≤ x.2.count := by
  rw [analyzeStepPatternsEq]
  cases o.runFile f with
  | error e => exact hP
  | ok res =>
    simp only []
    by_cases hconv : res.converted.isEmpty
    · rw [if_pos hconv]; exact hP
    · rw [if_neg hconv]
      by_cases hsty : (twClassListToPandaStyles o.getMatches o.conditionKeys
          res.converted).isEmpty
      · rw [if_pos hsty]; exact hP
      · rw [if_neg hsty]
        apply assocUpdate_forall (fun (u : ExtractedPatternM) => 1 ≤ u.count) _ _ _ hP
        intro e
        match e with
        | none => exact Nat.le_refl 1
        | some p =>
          show 1 ≤ p.count + 1
          omega

theorem analyzeStepPatternsIds (o : AnalyzeOracles) (st : AnalyzeState)
    (f : String) (hP : ∀ x ∈ st.classPatterns, x.2.id = x.1) :
    ∀ x ∈ (analyzeFileStep o st f).classPatterns, x.2.id = x.1 := by
  rw [analyzeStepPatternsEq]
  cases o.runFile f with
  | error e => exact hP
  | ok res =>
    simp only []
    by_cases hconv : res.converted.isEmpty
    · rw [if_pos hconv]; exact hP
    · rw [if_neg hconv]
      by_cases hsty : (twClassListToPandaStyles o.getMatches o.conditionKeys
          res.converted).isEmpty
      · rw [if_pos hsty]; exact hP
      · rw [if_neg hsty]
        apply assocUpdate_forall_pair
          (fun (x : String × ExtractedPatternM) => x.2.id = x.1) _ _ rfl ?_ _ hP
        intro k2 p hk2 hp
        exact hp

theorem analyzeStepPatternsKeysNodup (o : AnalyzeOracles) (st : AnalyzeState)
    (f : String) (hP : (st.classPatterns.map Prod.fst).Nodup) :
    (((analyzeFileStep o st f).classPatterns).map Prod.fst).Nodup := by
  rw [analyzeStepPatternsEq]
  cases o.runFile f with
  | error e => exact hP
  | ok res =>
    simp only []
    by_cases hconv : res.converted.isEmpty
    · rw [if_pos hconv]; exact hP
    · rw [if_neg hconv]
      by_cases hsty : (twClassListToPandaStyles o.getMatches o.conditionKeys
          res.converted).isEmpty
      · rw [if_pos hsty]; exact hP
      · rw [if_neg hsty]
        exact assocUpdate_keys_nodup _ _ _ hP

theorem analyzeFoldPatternsInv (o : AnalyzeOracles) :
    ∀ (files : List String) (st : AnalyzeState),
      (∀ x ∈ st.classPatterns, 1 ≤ x.2.count) →
      (∀ x ∈ st.classPatterns, x.2.id = x.1) →
      (st.classPatterns.map Prod.fst).Nodup →
      (∀ x ∈ (files.foldl (analyzeFileStep o) st).classPatterns, 1 ≤ x.2.count) ∧
      (∀ x ∈ (files.foldl (analyzeFileStep o) st).classPatterns, x.2.id = x.1) ∧
      (((files.foldl (analyzeFileStep o) st).classPatterns).map Prod.fst).Nodup := by
  intro files
  induction files with
  | nil => intro st h1 h2 h3; exact ⟨h1, h2, h3⟩
  | cons f rest ih =>
    intro st h1 h2 h3
    simp only [List.foldl_cons]
    exact ih _ (analyzeStepPatternsCountPos o st f h1)
      (analyzeStepPatternsIds o st f h2)
      (analyzeStepPatternsKeysNodup o st f h3)

theorem lookupSomeMem {α : Type} (k : String) (v : α) :
    ∀ (l : List (String × α)), l.lookup k = some v → (k, v) ∈ l := by
  intro l
  induction l with
  | nil => intro h; simp [List.lookup] at h
  | cons kv rest ih =>
    obtain ⟨k2, v2⟩ := kv
    intro h
    by_cases heq : k = k2
    · subst heq
      simp only [List.lookup, beq_self_eq_true] at h
      injection h with h2
      rw [h2]
      exact List.mem_cons_self _ _
    · have hne : (k == k2) = false := by simp [heq]
      simp only [List.lookup, hne] at h
      exact List.mem_cons_of_mem _ (ih h)

theorem mem_insertByCountPat (x t : ExtractedPatternM) :
    ∀ (l : List ExtractedPatternM), x ∈ insertByCountPat t l ↔ x = t ∨ x ∈ l := by
  intro l
  induction l with
  | nil => simp [insertByCountPat]
  | cons q rest ih =>
    simp only [insertByCountPat]
    split
    · simp
    · simp only [List.mem_cons, ih]
      tauto

theorem mem_sortPatternsByCount_aux (x : ExtractedPatternM) :
    ∀ (l : List ExtractedPatternM) (acc : List ExtractedPatternM),
      x ∈ l.foldl (fun acc t => insertByCountPat t acc) acc ↔ x ∈ acc ∨ x ∈ l := by
  intro l
  induction l with
  | nil => intro acc; simp
  | cons t rest ih =>
    intro acc
    simp only [List.foldl_cons, ih, mem_insertByCountPat, List.mem_cons]
    tauto

/-- C5: for a positive threshold, a class-set hash is present among detected
patterns if and only if at least `minPatternOccurrences` processed files
observed it (so `minPatternOccurrences - 1` observations leave it absent and
exactly `minPatternOccurrences` make it present); and each repeat observation
increments the stored count by one and appends the file to the pattern's file
list when not already present. -/
theorem C5_theorem :
    (∀ (o : AnalyzeOracles) (files : List String) (minCount : Nat) (h : String),
      1 ≤ minCount →
      ((∃ p ∈ (analyzeProjectModel o files minCount).patterns, p.id = h) ↔
        minCount ≤ files.countP (observesPattern o h))) ∧
    (∀ (o : AnalyzeOracles) (st : AnalyzeState) (f h : String) (p : ExtractedPatternM),
      observesPattern o h f = true →
      st.classPatterns.lookup h = some p →
      (analyzeFileStep o st f).classPatterns.lookup h =
        some { p with
          count := p.count + 1
          files := if f ∈ p.files then p.files else p.files ++ [f] }) := by
  constructor
  · intro o files minCount h hmin
    have hpat : (analyzeProjectModel o files minCount).patterns =
        sortPatternsByCount
          (((files.foldl (analyzeFileStep o) ⟨[], [], []⟩).classPatterns.map
            (fun kv => kv.2)).filter (fun p => minCount ≤ p.count)) := rfl
    obtain ⟨hpos, hids, hkeys⟩ :=
      analyzeFoldPatternsInv o files ⟨[], [], []⟩ (by simp) (by simp) (by simp)
    have hcount : patternCountIn
        ((files.foldl (analyzeFileStep o) ⟨[], [], []⟩).classPatterns) h =
        files.countP (observesPattern o h) := by
      rw [patternCountFold]
      simp [patternCountIn, List.lookup]
    constructor
    · rintro ⟨p, hp, hpid⟩
      rw [hpat, sortPatternsByCount] at hp
      have hp2 := (mem_sortPatternsByCount_aux p _ []).mp hp
      simp only [List.mem_nil_iff, false_or] at hp2
      have hp3 := List.mem_filter.mp hp2
      obtain ⟨kv, hkv, hkv2⟩ := List.mem_map.mp hp3.1
      have hkey : kv.1 = h := by
        have := hids kv hkv
        rw [hkv2] at this
        rw [← this, hpid]
      have hlook : (files.foldl (analyzeFileStep o) ⟨[], [], []⟩).classPatterns.lookup h =
          some p := by
        rw [← hkey]
        rw [← (mem_iff_lookup_of_keys_nodup _ hkeys kv.1 p)]
        have : (kv.1, p) = kv := by
          rw [← hkv2]
        rw [this]
        exact hkv
      have : patternCountIn
          ((files.foldl (analyzeFileStep o) ⟨[], [], []⟩).classPatterns) h = p.count := by
        unfold patternCountIn
        rw [hlook]
      rw [← hcount, this]
      exact of_decide_eq_true hp3.2
    · intro hge
      have hne : patternCountIn
          ((files.foldl (analyzeFileStep o) ⟨[], [], []⟩).classPatterns) h ≠ 0 := by
        rw [hcount]
        omega
      cases hlook : (files.foldl (analyzeFileStep o) ⟨[], [], []⟩).classPatterns.lookup h with
      | none =>
        exfalso
        apply hne
        unfold patternCountIn
        rw [hlook]
      | some p =>
        have hpcount : p.count = files.countP (observesPattern o h) := by
          rw [← hcount]
          unfold patternCountIn
          rw [hlook]
        have hmem := lookupSomeMem h p _ hlook
        have hpid : p.id = h := hids (h, p) hmem
        refine ⟨p, ?_, hpid⟩
        rw [hpat, sortPatternsByCount]
        rw [mem_sortPatternsByCount_aux]
        right
        apply List.mem_filter.mpr
        refine ⟨List.mem_map.mpr ⟨(h, p), hmem, rfl⟩, ?_⟩
        apply decide_eq_true
        omega
  · intro o st f h p hobs hlook
    rw [analyzeStepPatternsEq]
    unfold observesPattern at hobs
    cases hrun : o.runFile f with
    | error e => rw [hrun] at hobs; simp at hobs
    | ok res =>
      rw [hrun] at hobs
      simp only [Bool.and_eq_true, Bool.not_eq_true', decide_eq_true_eq] at hobs
      obtain ⟨⟨hconv, hsty⟩, hid⟩ := hobs
      simp only []
      rw [if_neg (by rw [hconv]; simp), if_neg (by rw [hsty]; simp)]
      rw [hid, assocUpdate_lookup_self, hlook]

/-- C5 witness: with threshold 1, a hash observed by one file is present
among the detected patterns. -/
theorem C5_witness :
    (∃ p ∈ (analyzeProjectModel
        ⟨fun _ => Except.ok ⟨["a"], ["a"], []⟩,
          fun _ => [⟨"color", "blue.500", "#3b82f6", ⟨[], false⟩⟩], [], false, id⟩
        ["f.tsx"] 1).patterns, p.id = "a") :=
  ( C5_theorem.1
    ⟨fun _ => Except.ok ⟨["a"], ["a"], []⟩,
      fun _ => [⟨"color", "blue.500", "#3b82f6", ⟨[], false⟩⟩], [], false, id⟩
    ["f.tsx"] 1 "a" (Nat.le_refl 1)).mpr (by decide)

end Tw2Panda
